import Mathlib

/-!
Verification of the streaming compression adapters of zstd-purego.

The development shallowly embeds the Go package `zstd` (files `zstd.go` and
the streaming Reader/Writer file) into Lean.  Bytes are `Nat`, Go slices are
`List Nat`, the native zstd engine (which is an external shared library, not
part of the repository) is a parameter: a record of step functions over an
abstract session-state type.  Every native call and every source/sink
interaction made by an adapter is recorded in an event trace so that claims
about resource lifecycles and cursor discipline can be stated.
-/

namespace ZstdPurego

/-- Errors produced or propagated by the package.  `eof` is Go's `io.EOF`,
`createStream` is the "failed to create (de)compression stream" error,
`codec e` is a `zstd ... error: %s` error carrying the engine's code, and
`ioErr n` stands for an arbitrary distinct source/sink I/O error. -/
inductive GoError where
  | eof
  | createStream
  | codec (code : Nat)
  | ioErr (tag : Nat)
deriving DecidableEq, Repr

/-- Events recorded during a run of an adapter method: native engine calls,
plus reads from the compressed source and writes to the compressed sink.
`compressStep` and `decompressStep` record the output cursor position at the
moment of the call, the capacity of the output region handed to the engine,
(for compression) the end-mode, the input bytes the engine consumed, the
engine's return value and the output cursor position after the call. -/
inductive Event where
  | createCStream (ok : Bool)
  | freeCStream
  | createDStream (ok : Bool)
  | freeDStream
  | freeCCtx
  | freeDCtx
  | compressStep (outPosAtCall outCap mode consumed ret resultOutPos : Nat)
  | decompressStep (outPosAtCall outCap consumed ret resultOutPos : Nat)
  | compressBoundCall
  | oneShotCompress
  | oneShotDecompress
  | sourceRead (n : Nat) (err : Option GoError)
  | sinkWrite (n : Nat) (err : Option GoError)
deriving DecidableEq, Repr

/-- Whether an event is a call into the native engine (as opposed to an
interaction with the external source or sink). -/
def Event.isNative : Event → Bool
  | .sourceRead _ _ => false
  | .sinkWrite _ _ => false
  | _ => true

/-- `EndContinue` mode for `compressStream2` (from the constants file). -/
def EndContinue : Nat := 0

/-- `EndFlush` mode for `compressStream2`. -/
def EndFlush : Nat := 1

/-- `EndEnd` mode for `compressStream2`. -/
def EndEnd : Nat := 2

/-- Default streaming read buffer size (16 KiB). -/
def defaultReadBufferSize : Nat := 16 * 1024

/-- Default streaming write buffer size (32 KiB). -/
def defaultWriteBufferSize : Nat := 32 * 1024

/-- `ZSTD_inBuffer`: the bytes the `Src` pointer designates (the first
`size` of them are valid), the total size, and the consumed-so-far
position. -/
structure ZstdInBuffer where
  src : List Nat
  size : Nat
  pos : Nat
deriving DecidableEq, Repr

/-- The part of the input region the engine has not consumed yet,
`Src[pos:size]`. -/
def ZstdInBuffer.remaining (b : ZstdInBuffer) : List Nat :=
  (b.src.take b.size).drop b.pos

/-- `ZSTD_outBuffer`: capacity of the destination region and the
filled-so-far position.  The bytes the engine writes are returned by the
engine model directly, so the destination contents are not duplicated
here. -/
structure ZstdOutBuffer where
  size : Nat
  pos : Nat
deriving DecidableEq, Repr

/-- Result of one native streaming call: the `uint64` return value, how many
input bytes the call consumed (the advance of `inBuffer.Pos`), the bytes it
wrote into the output region (so `outBuffer.Pos` becomes their length), and
the engine's internal state after the call. -/
structure StepResult (σ : Type) where
  ret : Nat
  consumed : Nat
  produced : List Nat
  next : σ
deriving DecidableEq, Repr

/-- The native zstd engine as seen through the `Zstd` struct's registered
function pointers.  `σc`/`σd` are the internal states of a compression /
decompression stream handle; `createCStream = none` models a `nil` handle.
The one-shot primitives return the `uint64` result together with the bytes
written (the first `result` bytes of the destination when the call
succeeded). -/
structure Zstd (σc σd : Type) where
  compressBound : Nat → Nat
  compress : (dstCapacity : Nat) → (src : List Nat) → (level : Int) → Nat × List Nat
  decompress : (dstCapacity : Nat) → (src : List Nat) → Nat × List Nat
  isError : Nat → Bool
  createCStream : Option σc
  compressStream2 : σc → (outCap : Nat) → (input : List Nat) → (mode : Nat) → StepResult σc
  createDStream : Option σd
  decompressStream : σd → (outCap : Nat) → (input : List Nat) → StepResult σd

/-- The engine respects the cursor contract on compression steps: it never
consumes more input than the input region holds and never writes past the
output region's capacity. -/
def Zstd.CWF (z : Zstd σc σd) : Prop :=
  ∀ s outCap input mode,
    (z.compressStream2 s outCap input mode).consumed ≤ input.length ∧
    (z.compressStream2 s outCap input mode).produced.length ≤ outCap

/-- The engine respects the cursor contract on decompression steps. -/
def Zstd.DWF (z : Zstd σc σd) : Prop :=
  ∀ s outCap input,
    (z.decompressStream s outCap input).consumed ≤ input.length ∧
    (z.decompressStream s outCap input).produced.length ≤ outCap

/-- An external sink (the `io.Writer` under a `Writer`): given its state and
a byte slice it returns Go's `(n, err)` pair and its next state. -/
structure Sink (τ : Type) where
  write : τ → List Nat → (Nat × Option GoError) × τ

/-- An external source (the `io.Reader` under a `Reader`): given its state
and the capacity of the destination slice it returns the bytes read, an
optional error, and its next state. -/
structure Source (ρ : Type) where
  read : ρ → (cap : Nat) → (List Nat × Option GoError) × ρ

/-- The streaming compression adapter's fields: the lazily created stream
handle, whether the (unused) compression context from `NewWriter` is still
alive, the compression level, `len(w.buffer)` (the staging capacity), and
the persisted cursor structs. -/
structure Writer (σc : Type) where
  stream : Option σc
  ctx : Bool
  level : Int
  bufferCap : Nat
  inBuffer : ZstdInBuffer
  outBuffer : ZstdOutBuffer
deriving DecidableEq, Repr

/-- `NewWriter`: context created, no stream yet, default 32 KiB staging
buffer. -/
def NewWriter (σc : Type) (level : Int) : Writer σc :=
  ⟨none, true, level, defaultWriteBufferSize, ⟨[], 0, 0⟩, ⟨0, 0⟩⟩

/-- Outcome of the compression loop inside `Writer.Write` (and of the
flush/close loop): error if any, the engine stream state, the writer with
its updated cursors, the sink state, and the recorded events. -/
structure WOut (σc τ : Type) where
  err : Option GoError
  s : σc
  w : Writer σc
  sink : τ
  events : List Event
deriving DecidableEq, Repr

/-- The `for w.inBuffer.Pos < w.inBuffer.Size` loop of `Writer.Write`:
reset the output cursor to the staging buffer, call `compressStream2` in
`EndContinue` mode, abort on an engine fault, forward any produced bytes to
the sink propagating its error, and repeat until the input is consumed.
`fuel` bounds the iterations; `none` means the loop did not finish within
`fuel` iterations. -/
def writeLoop (z : Zstd σc σd) (sk : Sink τ) :
    Nat → σc → Writer σc → τ → Option (WOut σc τ)
  | 0, _, _, _ => none
  | fuel + 1, s, w, sink =>
    if w.inBuffer.pos < w.inBuffer.size then
      let r := z.compressStream2 s w.bufferCap w.inBuffer.remaining EndContinue
      let w1 : Writer σc :=
        { w with inBuffer := { w.inBuffer with pos := w.inBuffer.pos + r.consumed },
                 outBuffer := ⟨w.bufferCap, r.produced.length⟩ }
      let ev := Event.compressStep 0 w.bufferCap EndContinue r.consumed r.ret r.produced.length
      if z.isError r.ret then
        some ⟨some (.codec r.ret), r.next, w1, sink, [ev]⟩
      else if 0 < r.produced.length then
        let wr := sk.write sink r.produced
        let ev2 := Event.sinkWrite wr.1.1 wr.1.2
        match wr.1.2 with
        | some e => some ⟨some e, r.next, w1, wr.2, [ev, ev2]⟩
        | none =>
          (writeLoop z sk fuel r.next w1 wr.2).map fun o =>
            ⟨o.err, o.s, o.w, o.sink, ev :: ev2 :: o.events⟩
      else
        (writeLoop z sk fuel r.next w1 sink).map fun o =>
          ⟨o.err, o.s, o.w, o.sink, ev :: o.events⟩
    else
      some ⟨none, s, w, sink, []⟩

/-- Result of `Writer.Write`: the returned `(int, error)` pair plus the
updated writer, sink state and events. -/
structure WriteResult (σc τ : Type) where
  n : Nat
  err : Option GoError
  w : Writer σc
  sink : τ
  events : List Event
deriving DecidableEq, Repr

/-- `Writer.Write`: empty input returns `(0, nil)` at once; otherwise the
stream is created lazily (failure returns the creation error and count 0),
the input cursor is set to the caller's slice fully unconsumed, and the
compression loop runs.  On success the call returns `len(p)`; on error it
returns `int(w.inBuffer.Pos)`, the engine's consumed count at the fault. -/
def Writer.Write (z : Zstd σc σd) (sk : Sink τ) (w : Writer σc) (sink : τ)
    (p : List Nat) (fuel : Nat) : Option (WriteResult σc τ) :=
  if p.length = 0 then
    some ⟨0, none, w, sink, []⟩
  else
    match w.stream with
    | some s =>
      (writeLoop z sk fuel s { w with inBuffer := ⟨p, p.length, 0⟩ } sink).map fun o =>
        ⟨if o.err = none then p.length else o.w.inBuffer.pos, o.err,
          { o.w with stream := some o.s }, o.sink, o.events⟩
    | none =>
      match z.createCStream with
      | none => some ⟨0, some .createStream, w, sink, [.createCStream false]⟩
      | some s =>
        (writeLoop z sk fuel s { w with inBuffer := ⟨p, p.length, 0⟩ } sink).map fun o =>
          ⟨if o.err = none then p.length else o.w.inBuffer.pos, o.err,
            { o.w with stream := some o.s }, o.sink, .createCStream true :: o.events⟩

/-- The flush/close loop shared by `Writer.Flush` and `Writer.Close`: with
an explicitly empty input cursor, repeatedly reset the output cursor, call
`compressStream2` in the given mode, drain produced bytes to the sink, and
stop when the return value is 0. -/
def termLoop (z : Zstd σc σd) (sk : Sink τ) (mode : Nat) :
    Nat → σc → Writer σc → τ → Option (WOut σc τ)
  | 0, _, _, _ => none
  | fuel + 1, s, w, sink =>
    let r := z.compressStream2 s w.bufferCap w.inBuffer.remaining mode
    let w1 : Writer σc :=
      { w with inBuffer := { w.inBuffer with pos := w.inBuffer.pos + r.consumed },
               outBuffer := ⟨w.bufferCap, r.produced.length⟩ }
    let ev := Event.compressStep 0 w.bufferCap mode r.consumed r.ret r.produced.length
    if z.isError r.ret then
      some ⟨some (.codec r.ret), r.next, w1, sink, [ev]⟩
    else if 0 < r.produced.length then
      let wr := sk.write sink r.produced
      let ev2 := Event.sinkWrite wr.1.1 wr.1.2
      match wr.1.2 with
      | some e => some ⟨some e, r.next, w1, wr.2, [ev, ev2]⟩
      | none =>
        if r.ret = 0 then
          some ⟨none, r.next, w1, wr.2, [ev, ev2]⟩
        else
          (termLoop z sk mode fuel r.next w1 wr.2).map fun o =>
            ⟨o.err, o.s, o.w, o.sink, ev :: ev2 :: o.events⟩
    else
      if r.ret = 0 then
        some ⟨none, r.next, w1, sink, [ev]⟩
      else
        (termLoop z sk mode fuel r.next w1 sink).map fun o =>
          ⟨o.err, o.s, o.w, o.sink, ev :: o.events⟩

/-- Result of `Writer.Flush` / `Writer.Close`. -/
structure FlushResult (σc τ : Type) where
  err : Option GoError
  w : Writer σc
  sink : τ
  events : List Event
deriving DecidableEq, Repr

/-- `Writer.Flush`: a nil stream returns nil immediately with no native
calls; otherwise the input cursor is set to an explicitly empty region and
the flush loop runs in `EndFlush` mode.  The stream is never released
here. -/
def Writer.Flush (z : Zstd σc σd) (sk : Sink τ) (w : Writer σc) (sink : τ)
    (fuel : Nat) : Option (FlushResult σc τ) :=
  match w.stream with
  | none => some ⟨none, w, sink, []⟩
  | some s =>
    (termLoop z sk EndFlush fuel s { w with inBuffer := ⟨[], 0, 0⟩ } sink).map fun o =>
      ⟨o.err, { o.w with stream := some o.s }, o.sink, o.events⟩

/-- `Writer.Close`: the deferred block frees the compression context (if
still alive) on every path.  With a nil stream the body returns nil with no
further native calls; otherwise the close loop runs in `EndEnd` mode and the
stream is freed and nilled on the success path and on both error paths. -/
def Writer.Close (z : Zstd σc σd) (sk : Sink τ) (w : Writer σc) (sink : τ)
    (fuel : Nat) : Option (FlushResult σc τ) :=
  let ctxEvs := if w.ctx then [Event.freeCCtx] else []
  match w.stream with
  | none => some ⟨none, { w with ctx := false }, sink, ctxEvs⟩
  | some s =>
    (termLoop z sk EndEnd fuel s { w with inBuffer := ⟨[], 0, 0⟩ } sink).map fun o =>
      ⟨o.err, { o.w with stream := none, ctx := false }, o.sink,
        o.events ++ [Event.freeCStream] ++ ctxEvs⟩

/-- The streaming decompression adapter's fields: lazily created stream
handle, the context from `NewReader`, `len(r.buffer)` (capacity of the
compressed staging buffer), `len(r.readBuffer)` (0 while the buffer is still
nil), the persisted input cursor over the compressed staging buffer, the
output cursor, the decompressed bytes `readBuffer[0:end]`, the serve cursor
pair `pos`/`end` (`endPos` here, since `end` is reserved), and the
end-of-stream flag. -/
structure Reader (σd : Type) where
  stream : Option σd
  ctx : Bool
  bufCap : Nat
  readBufCap : Nat
  inBuffer : ZstdInBuffer
  outBuffer : ZstdOutBuffer
  readBuf : List Nat
  pos : Nat
  endPos : Nat
  streamEnded : Bool
deriving DecidableEq, Repr

/-- `NewReader`: context created, stream and `readBuffer` still nil, 16 KiB
compressed staging buffer. -/
def NewReader (σd : Type) : Reader σd :=
  ⟨none, true, defaultReadBufferSize, 0, ⟨[], 0, 0⟩, ⟨0, 0⟩, [], 0, 0, false⟩

/-- Outcome of one iteration of the refill loop in `Reader.Read`: an early
`return` from inside the loop, the `break` taken when the source reports
no data and no error, or falling through to the next iteration. -/
inductive BodyOut (σd ρ : Type) where
  | ret (n : Nat) (bytes : List Nat) (err : Option GoError) (r : Reader σd) (src : ρ)
      (events : List Event)
  | brk (r : Reader σd) (src : ρ) (events : List Event)
  | cont (r : Reader σd) (src : ρ) (events : List Event)
deriving DecidableEq, Repr

/-- The native call of the refill loop: reset the output cursor to the
decompressed staging buffer, call `decompressStream`, fail fatally (also
marking the stream ended) on an engine fault, otherwise stage the produced
bytes (`r.end = int(r.outBuffer.Pos)`) and mark the stream ended when the
return hint is 0. -/
def readStep (z : Zstd σc σd) (s : σd) (r : Reader σd) (src : ρ)
    (evs : List Event) : BodyOut σd ρ :=
  let st := z.decompressStream s r.readBufCap r.inBuffer.remaining
  let ev := Event.decompressStep 0 r.readBufCap st.consumed st.ret st.produced.length
  let r1 : Reader σd :=
    { r with stream := some st.next,
             inBuffer := { r.inBuffer with pos := r.inBuffer.pos + st.consumed },
             outBuffer := ⟨r.readBufCap, st.produced.length⟩ }
  if z.isError st.ret then
    .ret 0 [] (some (.codec st.ret)) { r1 with streamEnded := true } src (evs ++ [ev])
  else
    let r2 : Reader σd := { r1 with endPos := st.produced.length, readBuf := st.produced }
    if st.ret = 0 then
      .cont { r2 with streamEnded := true } src (evs ++ [ev])
    else
      .cont r2 src (evs ++ [ev])

/-- The refill step of the loop in `Reader.Read`: when the input cursor is
exhausted, pull more compressed bytes from the source into the staging
buffer; a source error other than `io.EOF` is propagated, `io.EOF` falls
through to the engine call with an explicitly empty input region, and a
zero-byte read with no error breaks the loop. -/
def readRefill (z : Zstd σc σd) (so : Source ρ) (s : σd) (r : Reader σd)
    (src : ρ) (evs : List Event) : BodyOut σd ρ :=
  if r.inBuffer.size ≤ r.inBuffer.pos then
    let rr := so.read src r.bufCap
    let bs := rr.1.1
    let serr := rr.1.2
    let evs1 := evs ++ [Event.sourceRead bs.length serr]
    let r1 : Reader σd :=
      if 0 < bs.length then { r with inBuffer := ⟨bs, bs.length, 0⟩ }
      else { r with inBuffer := ⟨[], 0, 0⟩ }
    match serr with
    | some .eof => readStep z s r1 rr.2 evs1
    | some e => .ret 0 [] (some e) r1 rr.2 evs1
    | none =>
      if bs.length = 0 then .brk r1 rr.2 evs1
      else readStep z s r1 rr.2 evs1
  else
    readStep z s r src evs

/-- One iteration of the refill loop's body: create the decompression
stream lazily (also allocating `readBuffer` at its default capacity when it
is still nil), then refill and step. -/
def readBody (z : Zstd σc σd) (so : Source ρ) (r : Reader σd) (src : ρ) :
    BodyOut σd ρ :=
  match r.stream with
  | some s => readRefill z so s r src []
  | none =>
    match z.createDStream with
    | none => .ret 0 [] (some .createStream) r src [.createDStream false]
    | some s =>
      let cap := if r.readBufCap = 0 then defaultReadBufferSize else r.readBufCap
      readRefill z so s { r with stream := some s, readBufCap := cap } src
        [.createDStream true]

/-- The exit of the refill loop: an early `return`, or reaching the code
after the loop (either by the no-data `break` or because the loop condition
`r.end == 0 && !r.streamEnded` failed). -/
inductive RLoopExit (σd ρ : Type) where
  | ret (n : Nat) (bytes : List Nat) (err : Option GoError) (r : Reader σd) (src : ρ)
      (events : List Event)
  | fall (r : Reader σd) (src : ρ) (events : List Event)
deriving DecidableEq, Repr

/-- Prefix the recorded events of a loop exit with the events of an earlier
iteration. -/
def RLoopExit.prepend (evs : List Event) : RLoopExit σd ρ → RLoopExit σd ρ
  | .ret n bs err r src evs2 => .ret n bs err r src (evs ++ evs2)
  | .fall r src evs2 => .fall r src (evs ++ evs2)

/-- The `for r.end == 0 && !r.streamEnded` refill loop of `Reader.Read`.
`none` means the loop did not exit within `fuel` iterations. -/
def readLoop (z : Zstd σc σd) (so : Source ρ) :
    Nat → Reader σd → ρ → Option (RLoopExit σd ρ)
  | 0, _, _ => none
  | fuel + 1, r, src =>
    if r.endPos = 0 ∧ r.streamEnded = false then
      match readBody z so r src with
      | .ret n bs err r1 src1 evs => some (.ret n bs err r1 src1 evs)
      | .brk r1 src1 evs => some (.fall r1 src1 evs)
      | .cont r1 src1 evs =>
        (readLoop z so fuel r1 src1).map (RLoopExit.prepend evs)
    else
      some (.fall r src [])

/-- Result of `Reader.Read`: the returned `(int, error)` pair (`bytes` are
the bytes copied into the caller's slice), the updated reader, the source
state and the events. -/
structure ReadResult (σd ρ : Type) where
  n : Nat
  bytes : List Nat
  err : Option GoError
  r : Reader σd
  src : ρ
  events : List Event
deriving DecidableEq, Repr

/-- `Reader.Read` with a caller buffer of capacity `pcap`: serve leftover
staged bytes first; report `io.EOF` when the stream has ended and all staged
bytes are consumed; otherwise reset the serve cursors and run the refill
loop, after which either staged bytes are served, or `(0, io.EOF)` /
`(0, nil)` is returned according to `r.streamEnded`. -/
def Reader.Read (z : Zstd σc σd) (so : Source ρ) (r : Reader σd) (src : ρ)
    (pcap : Nat) (fuel : Nat) : Option (ReadResult σd ρ) :=
  if r.pos < r.endPos then
    let n := min pcap (r.endPos - r.pos)
    some ⟨n, (r.readBuf.drop r.pos).take n, none, { r with pos := r.pos + n }, src, []⟩
  else if r.streamEnded then
    some ⟨0, [], some .eof, r, src, []⟩
  else
    let r0 : Reader σd := { r with pos := 0, endPos := 0, readBuf := [] }
    match readLoop z so fuel r0 src with
    | none => none
    | some (.ret n bs err r1 src1 evs) => some ⟨n, bs, err, r1, src1, evs⟩
    | some (.fall r1 src1 evs) =>
      if r1.endPos = 0 then
        if r1.streamEnded then some ⟨0, [], some .eof, r1, src1, evs⟩
        else some ⟨0, [], none, r1, src1, evs⟩
      else
        let n := min pcap r1.endPos
        some ⟨n, r1.readBuf.take n, none, { r1 with pos := n }, src1, evs⟩

/-- `Reader.Close`: free the stream and the context when still alive, nil
both, and return nil unconditionally. -/
def Reader.Close (r : Reader σd) : Option GoError × Reader σd × List Event :=
  let evs1 := match r.stream with | none => [] | some _ => [Event.freeDStream]
  let evs2 := if r.ctx then [Event.freeDCtx] else []
  (none, { r with stream := none, ctx := false }, evs1 ++ evs2)

/-- `io.ReadAll` over a `Reader`: repeatedly `Read` into a buffer of
capacity `pcap`, appending the returned bytes, until `io.EOF` (success) or
another error.  The first fuel bounds the number of `Read` calls, the
second is handed to each `Read`. -/
def readAll (z : Zstd σc σd) (so : Source ρ) :
    Nat → Nat → Reader σd → ρ → Nat → List Nat →
    Option (List Nat × Option GoError × Reader σd × ρ)
  | 0, _, _, _, _, _ => none
  | fo + 1, fi, r, src, pcap, acc =>
    match Reader.Read z so r src pcap fi with
    | none => none
    | some res =>
      match res.err with
      | some .eof => some (acc ++ res.bytes, none, res.r, res.src)
      | some e => some (acc ++ res.bytes, some e, res.r, res.src)
      | none => readAll z so fo fi res.r res.src pcap (acc ++ res.bytes)

/-- Result of the one-shot `Zstd.Compress`/`Zstd.Decompress`: the returned
slice (`none` models a nil slice, `some l` a non-nil slice of those bytes),
the returned error, and the recorded native calls. -/
structure OneShotResult where
  dst : Option (List Nat)
  err : Option GoError
  events : List Event
deriving DecidableEq, Repr

/-- One-shot `Zstd.Compress`: empty input returns a non-nil empty slice and
nil error immediately; otherwise a destination of capacity
`CompressBound(len(src))` is allocated, the native `compress` runs, and on
success `dst[:result]` is returned. -/
def Zstd.Compress (z : Zstd σc σd) (src : List Nat) (level : Int) : OneShotResult :=
  if src.length = 0 then ⟨some [], none, []⟩
  else
    let dstCapacity := z.compressBound src.length
    let r := z.compress dstCapacity src level
    if z.isError r.1 then ⟨none, some (.codec r.1), [.compressBoundCall, .oneShotCompress]⟩
    else ⟨some r.2, none, [.compressBoundCall, .oneShotCompress]⟩

/-- One-shot `Zstd.Decompress`: empty input returns a non-nil empty slice
and nil error immediately; a `maxSize` of 0 (or below) defaults to
`5 * len(src)`, at least 1024; the native `decompress` runs into a
destination of that capacity and on success `dst[:result]` is returned. -/
def Zstd.Decompress (z : Zstd σc σd) (src : List Nat) (maxSize : Int) : OneShotResult :=
  if src.length = 0 then ⟨some [], none, []⟩
  else
    let m : Nat :=
      if maxSize ≤ 0 then max (src.length * 5) 1024
      else maxSize.toNat
    let r := z.decompress m src
    if z.isError r.1 then ⟨none, some (.codec r.1), [.oneShotDecompress]⟩
    else ⟨some r.2, none, [.oneShotDecompress]⟩

/-! ## A model of the native engine

The zstd shared library itself is not part of the repository (the spec
treats it as an external collaborator supplying the step primitives), so
for the claims that depend on what the engine computes — the round-trip
properties — it is modelled from the spec.  The model is a step-driven
stored-format codec: the compression stream emits length-prefixed literal
blocks `k, b₁, …, b_k` with `1 ≤ k ≤ 255` and ends a frame with a single
`0` byte; the decompression stream parses them back, reporting progress
through the same cursor contract and return-hint convention (`0` = frame
complete, positive = more work) that the adapters rely on. -/

/-- Internal state of the model decompression stream: expecting a block
header, expecting `k` more payload bytes of the current block, or the frame
is complete. -/
inductive DState where
  | header
  | payload (k : Nat)
  | done
deriving DecidableEq, Repr

/-- Modelled from the spec: one `decompressionStep` of the missing native
engine.  Consumes at most one header byte or one run of payload bytes per
call, writes payload bytes into the output region, returns 0 exactly when
the frame terminator has been consumed, and never blocks or errors. -/
def modelDStep : DState → (outCap : Nat) → (input : List Nat) → StepResult DState
  | .done, _, _ => ⟨0, 0, [], .done⟩
  | .header, _, [] => ⟨1, 0, [], .header⟩
  | .header, _, h :: _ =>
    if h = 0 then ⟨0, 1, [], .done⟩ else ⟨1, 1, [], .payload h⟩
  | .payload k, outCap, input =>
    let m := min k (min input.length outCap)
    if m = 0 then ⟨1, 0, [], .payload k⟩
    else ⟨1, m, input.take m, if m < k then .payload (k - m) else .header⟩

/-- Modelled from the spec: one `compressionStep` of the missing native
engine.  In continue mode it moves up to `min(255, outCap - 1)` input bytes
into a length-prefixed block; in flush mode (nothing is buffered
internally) it completes at once; in end mode with no input it emits the
frame terminator `0` when the output region has room. -/
def modelCStep : Unit → (outCap : Nat) → (input : List Nat) → (mode : Nat) → StepResult Unit
  | _, outCap, input, mode =>
    if mode = EndEnd ∧ input = [] then
      if 1 ≤ outCap then ⟨0, 0, [0], ()⟩ else ⟨1, 0, [], ()⟩
    else if mode = EndFlush ∧ input = [] then ⟨0, 0, [], ()⟩
    else
      match input with
      | [] => ⟨1, 0, [], ()⟩
      | _ :: _ =>
        let k := min (min input.length 255) (outCap - 1)
        if k = 0 then ⟨1, 0, [], ()⟩
        else ⟨1, k, k :: input.take k, ()⟩

/-- Error code used by the model one-shot primitives (the all-ones
`uint64`, in the range zstd reserves for faults). -/
def modelErrCode : Nat := 2 ^ 64 - 1

/-- Modelled from the spec: the missing native engine as a whole.  The
one-shot primitives use the stored format directly (compressed = original
bytes), faulting on a compression level outside 1..22 or a too-small
destination; the streaming primitives are `modelCStep`/`modelDStep`. -/
def modelZstd : Zstd Unit DState where
  compressBound n := n + 8
  compress dstCapacity src level :=
    if 1 ≤ level ∧ level ≤ 22 ∧ src.length ≤ dstCapacity then (src.length, src)
    else (modelErrCode, [])
  decompress dstCapacity src :=
    if src.length ≤ dstCapacity then (src.length, src) else (modelErrCode, [])
  isError c := c = modelErrCode
  createCStream := some ()
  compressStream2 s outCap input mode := modelCStep s outCap input mode
  createDStream := some .header
  decompressStream s outCap input := modelDStep s outCap input

/-- A `bytes.Buffer`-style source: reads serve a prefix of the remaining
bytes (up to the destination capacity) with no error, and an exhausted
source reports `(0, io.EOF)`. -/
def listSource : Source (List Nat) where
  read st cap := if st.length = 0 then (([], some .eof), []) else ((st.take cap, none), st.drop cap)

/-- A `bytes.Buffer`-style sink: accepts every byte, appending it to its
state. -/
def bufferSink : Sink (List Nat) where
  write st bs := ((bs.length, none), st ++ bs)

/-- A sink whose write always fails having durably accepted nothing. -/
def failSink : Sink (List Nat) where
  write st _ := ((0, some (.ioErr 1)), st)

/-- A source that always reports "no data yet, not an error". -/
def zeroSource : Source Unit where
  read _ _ := (([], none), ())

/-- An adversarial engine whose compression step consumes the whole input
region and produces one output byte, never faulting; its other primitives
are irrelevant defaults. -/
def greedyZstd : Zstd Unit Unit where
  compressBound n := n
  compress _ _ _ := (0, [])
  decompress _ _ := (0, [])
  isError _ := false
  createCStream := some ()
  compressStream2 _ _ input _ := ⟨1, input.length, if input.length = 0 then [] else [99], ()⟩
  createDStream := some ()
  decompressStream _ _ _ := ⟨1, 0, [], ()⟩

/-- An adversarial engine whose every streaming step reports fault code 5
without any progress. -/
def faultyZstd : Zstd Unit Unit where
  compressBound n := n
  compress _ _ _ := (0, [])
  decompress _ _ := (0, [])
  isError c := c = 5
  createCStream := some ()
  compressStream2 _ _ _ _ := ⟨5, 0, [], ()⟩
  createDStream := some ()
  decompressStream _ _ _ := ⟨5, 0, [], ()⟩

/-- An adversarial engine whose decompression step indefinitely returns the
non-terminal hint 1 with zero input consumed and zero output produced. -/
def stallZstd : Zstd Unit Unit where
  compressBound n := n
  compress _ _ _ := (0, [])
  decompress _ _ := (0, [])
  isError _ := false
  createCStream := some ()
  compressStream2 _ _ _ _ := ⟨1, 0, [], ()⟩
  createDStream := some ()
  decompressStream _ _ _ := ⟨1, 0, [], ()⟩

/-! ## Decoding relations for the model codec -/

/-- `Chunked b enc`: `enc` is a sequence of length-prefixed literal blocks
whose payloads concatenate to `b` (the body of a model frame, without the
terminator). -/
inductive Chunked : List Nat → List Nat → Prop
  | nil : Chunked [] []
  | cons (k : Nat) (b enc : List Nat) : 1 ≤ k → k ≤ 255 → k ≤ b.length →
      Chunked (b.drop k) enc → Chunked b (k :: b.take k ++ enc)

/-- `DDec ds f out`: from decompression state `ds`, consuming the byte
stream `f` up to and including the frame terminator yields exactly the
decompressed bytes `out`. -/
inductive DDec : DState → List Nat → List Nat → Prop
  | done (rest : List Nat) : DDec .done rest []
  | term (rest : List Nat) : DDec .header (0 :: rest) []
  | hdr (h : Nat) (t out : List Nat) : 1 ≤ h → DDec (.payload h) t out →
      DDec .header (h :: t) out
  | pay (k : Nat) (t out : List Nat) : 1 ≤ k → k ≤ t.length →
      DDec .header (t.drop k) out → DDec (.payload k) t (t.take k ++ out)

lemma DDec.done_out {rest out : List Nat} (h : DDec .done rest out) : out = [] := by
  cases h; rfl

lemma DDec.nil_input {ds : DState} {out : List Nat} (h : DDec ds [] out) :
    ds = .done ∧ out = [] := by
  cases h with
  | done => exact ⟨rfl, rfl⟩
  | pay k t out h1 h2 => simp at h2; omega

lemma DDec.header_zero {rest out : List Nat} (h : DDec .header (0 :: rest) out) :
    out = [] := by
  cases h with
  | term => rfl
  | hdr h t out h1 => omega

lemma DDec.header_cons {h : Nat} {t out : List Nat} (hh : h ≠ 0)
    (hd : DDec .header (h :: t) out) : DDec (.payload h) t out := by
  cases hd with
  | term => omega
  | hdr _ _ _ _ hp => exact hp

lemma DDec.payload_inv {k : Nat} {t out : List Nat} (h : DDec (.payload k) t out) :
    1 ≤ k ∧ k ≤ t.length ∧ ∃ out2, out = t.take k ++ out2 ∧
      DDec .header (t.drop k) out2 := by
  cases h with
  | pay _ _ out2 h1 h2 h3 => exact ⟨h1, h2, out2, rfl, h3⟩

/-- A chunked frame body followed by any decodable continuation decodes to
the concatenation of the payloads and the continuation's output. -/
lemma Chunked.ddec {b enc : List Nat} (hc : Chunked b enc) :
    ∀ rest out, DDec .header rest out → DDec .header (enc ++ rest) (b ++ out) := by
  induction hc with
  | nil => intro rest out h; simpa using h
  | cons k b enc h1 h255 hlen _ ih =>
    intro rest out h
    have htk : (b.take k).length = k := by simp [List.length_take]; omega
    have h2 : DDec .header (enc ++ rest) (b.drop k ++ out) := ih rest out h
    have h3 : DDec (.payload k) (b.take k ++ (enc ++ rest)) ((b.take k ++ (enc ++ rest)).take k ++ (b.drop k ++ out)) := by
      apply DDec.pay k _ _ h1
      · simp [htk]
      · rw [List.drop_append_of_le_length (by omega)]
        rw [List.drop_eq_nil_of_le (le_of_eq htk)]
        simpa using h2
    have h4 : (b.take k ++ (enc ++ rest)).take k = b.take k := by
      rw [List.take_append_of_le_length (by omega)]
      simp [List.take_take]
    rw [h4] at h3
    have h5 : DDec .header (k :: (b.take k ++ (enc ++ rest))) (b.take k ++ (b.drop k ++ out)) :=
      DDec.hdr k _ _ h1 h3
    have h6 : b.take k ++ (b.drop k ++ out) = b ++ out := by
      rw [← List.append_assoc, List.take_append_drop]
    rw [h6] at h5
    simpa [List.append_assoc] using h5

/-- Concatenating two chunked encodings chunks the concatenated payloads. -/
lemma Chunked.append {a ea b eb : List Nat} (ha : Chunked a ea) (hb : Chunked b eb) :
    Chunked (a ++ b) (ea ++ eb) := by
  induction ha with
  | nil => simpa using hb
  | cons k a ea h1 h255 hlen _ ih =>
    have h4 : (a ++ b).take k = a.take k := List.take_append_of_le_length hlen
    have h5 : (a ++ b).drop k = a.drop k ++ b := List.drop_append_of_le_length hlen
    have := Chunked.cons k (a ++ b) (ea ++ eb) h1 h255 (by simp; omega) (by rw [h5]; exact ih)
    simpa [h4] using this

/-- A chunked encoding is at most twice as long as its payload. -/
lemma Chunked.length_le {b enc : List Nat} (hc : Chunked b enc) :
    enc.length ≤ 2 * b.length := by
  induction hc with
  | nil => simp
  | cons k b enc h1 h255 hlen _ ih =>
    simp only [List.length_cons, List.length_append, List.length_take]
    have hb : (b.drop k).length = b.length - k := by simp
    omega

/-- Simulation of one model decompression step: under the decode relation,
a step over a partial input region `a` (with the rest of the stream `rest`
still to arrive) consumes a prefix of `a`, produces a prefix of the
remaining output, and re-establishes the relation; it signals 0 exactly at
the frame terminator, and always consumes at least one byte when input is
available and the frame is not already complete. -/
lemma modelDStep_sim {ds : DState} {a rest out : List Nat} {outCap : Nat}
    (hcap : 1 ≤ outCap) (h : DDec ds (a ++ rest) out) :
    (modelDStep ds outCap a).consumed ≤ a.length ∧
    (modelDStep ds outCap a).produced.length ≤ outCap ∧
    ∃ tail, out = (modelDStep ds outCap a).produced ++ tail ∧
      DDec (modelDStep ds outCap a).next (a.drop (modelDStep ds outCap a).consumed ++ rest) tail ∧
      ((modelDStep ds outCap a).ret = 0 →
        (modelDStep ds outCap a).produced = [] ∧ tail = []) ∧
      (a ≠ [] → ds ≠ .done → 1 ≤ (modelDStep ds outCap a).consumed) := by
  match ds, a with
  | .done, a =>
    have hout : out = [] := h.done_out
    exact ⟨by simp [modelDStep], by simp [modelDStep],
      [], by simp [modelDStep, hout], by simp [modelDStep]; exact DDec.done _,
      by simp [modelDStep], by simp⟩
  | .header, [] =>
    exact ⟨by simp [modelDStep], by simp [modelDStep],
      out, by simp [modelDStep], by simpa [modelDStep] using h,
      by simp [modelDStep], by simp⟩
  | .header, h0 :: a' =>
    by_cases hz : h0 = 0
    · subst hz
      have hout : out = [] := h.header_zero
      have hstep : modelDStep .header outCap (0 :: a') = ⟨0, 1, [], .done⟩ := by
        simp [modelDStep]
      rw [hstep]
      exact ⟨by simp, by simp, [], by simp [hout], by simpa using DDec.done _,
        by simp, by simp⟩
    · have hp : DDec (.payload h0) (a' ++ rest) out := h.header_cons hz
      have hstep : modelDStep .header outCap (h0 :: a') = ⟨1, 1, [], .payload h0⟩ := by
        simp [modelDStep, hz]
      rw [hstep]
      exact ⟨by simp, by simp, out, by simp, by simpa using hp, by simp, by simp⟩
  | .payload k, a =>
    obtain ⟨hk1, hklen, out2, hout, hrest⟩ := h.payload_inv
    match a with
    | [] =>
      refine ⟨by simp [modelDStep], by simp [modelDStep], out, by simp [modelDStep], ?_,
        by simp [modelDStep], by simp⟩
      simpa [modelDStep] using h
    | x :: a' =>
      set f := (x :: a') ++ rest with hf
      have hm1 : 1 ≤ min k (min (x :: a').length outCap) := by
        simp only [List.length_cons]; omega
      have hmne : ¬ (min k (min (x :: a').length outCap) = 0) := by omega
      set m := min k (min (x :: a').length outCap) with hmdef
      have hstep : modelDStep (.payload k) outCap (x :: a') =
          ⟨1, m, (x :: a').take m, if m < k then .payload (k - m) else .header⟩ := by
        simp only [modelDStep]
        rw [if_neg hmne]
      have hma : m ≤ (x :: a').length := by omega
      have hmk : m ≤ k := by omega
      have htake : (x :: a').take m = f.take m := by
        rw [hf, List.take_append_of_le_length hma]
      have hdrop : (x :: a').drop m ++ rest = f.drop m := by
        rw [hf, List.drop_append_of_le_length hma]
      rw [hstep]
      have hfm : (f.drop m).length = f.length - m := by simp
      have hflen : k ≤ f.length := hklen
      refine ⟨hma, by simp; omega, ?_⟩
      by_cases hlt : m < k
      · refine ⟨(f.drop m).take (k - m) ++ out2, ?_, ?_, by simp, fun _ _ => hm1⟩
        · rw [hout]
          dsimp only
          rw [htake, ← List.append_assoc, ← List.take_add]
          congr 2
          omega
        · dsimp only
          rw [if_pos hlt, hdrop]
          apply DDec.pay _ _ _ (by omega) (by omega)
          rw [List.drop_drop]
          have hkm : m + (k - m) = k := by omega
          rw [hkm]
          exact hrest
      · have hmk' : m = k := by omega
        refine ⟨out2, ?_, ?_, by simp, fun _ _ => hm1⟩
        · rw [hout]
          dsimp only
          rw [htake, hmk']
        · dsimp only
          rw [if_neg hlt, hdrop, hmk']
          exact hrest

/-! ## Invariant of the model Reader -/

lemma ZstdInBuffer.remaining_mk (bs : List Nat) :
    (ZstdInBuffer.mk bs bs.length 0).remaining = bs := by
  simp [ZstdInBuffer.remaining]

lemma ZstdInBuffer.remaining_advance (b : ZstdInBuffer) (c : Nat) :
    (ZstdInBuffer.mk b.src b.size (b.pos + c)).remaining = b.remaining.drop c := by
  simp [ZstdInBuffer.remaining, List.drop_drop, Nat.add_comm]

lemma ZstdInBuffer.remaining_length (b : ZstdInBuffer) (h : b.size = b.src.length) :
    b.remaining.length = b.size - b.pos := by
  simp [ZstdInBuffer.remaining, h]

lemma ZstdInBuffer.remaining_eq_nil (b : ZstdInBuffer) (h : b.size ≤ b.pos) :
    b.remaining = [] := by
  apply List.drop_eq_nil_of_le
  simp
  omega

/-- Total compressed bytes still ahead of the engine: the unconsumed part
of the staging buffer plus the unread part of the source. -/
def Tr (r : Reader DState) (srem : List Nat) : Nat :=
  r.inBuffer.remaining.length + srem.length

/-- Invariant tying a model `Reader` state to the remaining source bytes
`srem` and the decompressed bytes `fut` still owed to the caller. -/
structure RInv (r : Reader DState) (srem fut : List Nat) : Prop where
  posLe : r.pos ≤ r.endPos
  endEq : r.endPos = r.readBuf.length
  inPosLe : r.inBuffer.pos ≤ r.inBuffer.size
  inSizeEq : r.inBuffer.size = r.inBuffer.src.length
  bufCapPos : 1 ≤ r.bufCap
  readCap : r.stream ≠ none → 1 ≤ r.readBufCap
  decode : ∃ engF, fut = r.readBuf.drop r.pos ++ engF ∧
    (r.streamEnded = true → engF = []) ∧
    (r.streamEnded = false → DDec (r.stream.getD .header) (r.inBuffer.remaining ++ srem) engF)

lemma modelDStep_ret_le (ds : DState) (cap : Nat) (a : List Nat) :
    (modelDStep ds cap a).ret ≤ 1 := by
  match ds, a with
  | .done, _ => simp [modelDStep]
  | .header, [] => simp [modelDStep]
  | .header, h :: t => by_cases hz : h = 0 <;> simp [modelDStep, hz]
  | .payload k, a =>
    simp only [modelDStep]
    split <;> simp

lemma modelZstd_isError_le {n : Nat} (h : n ≤ 1) : modelZstd.isError n = false := by
  have hne : ¬ (n = modelErrCode) := by unfold modelErrCode; omega
  simp [modelZstd, hne]

/-- One `readStep` of the model reader preserves the invariant: it either
continues with strictly less compressed input ahead, marks the stream
ended (exactly at the frame terminator), or stages at least one
decompressed byte. -/
lemma readStep_model (s : DState) (r : Reader DState) (src : List Nat)
    (fut : List Nat) (evs : List Event)
    (hpos : r.pos = 0) (hse : r.streamEnded = false)
    (hinPosLe : r.inBuffer.pos ≤ r.inBuffer.size)
    (hinSizeEq : r.inBuffer.size = r.inBuffer.src.length)
    (hbufCap : 1 ≤ r.bufCap) (hreadCap : 1 ≤ r.readBufCap)
    (hdone : r.inBuffer.remaining = [] → s = .done)
    (hdec : DDec s (r.inBuffer.remaining ++ src) fut) :
    ∃ r1 evs1, readStep modelZstd s r src evs = .cont r1 src (evs ++ evs1) ∧
      r1.pos = r.pos ∧ r1.bufCap = r.bufCap ∧ r1.readBufCap = r.readBufCap ∧
      RInv r1 src fut ∧ Tr r1 src ≤ Tr r src ∧
      ((r1.endPos = 0 ∧ r1.streamEnded = false ∧ r1.readBuf = [] ∧
          Tr r1 src + 1 ≤ Tr r src) ∨
        r1.streamEnded = true ∨ 1 ≤ r1.endPos) := by
  set a := r.inBuffer.remaining with ha
  obtain ⟨hcons, hprod, tail, hfut, hnext, hret0, hprog⟩ :=
    @modelDStep_sim s a src fut r.readBufCap hreadCap hdec
  set st := modelDStep s r.readBufCap a with hst
  have herr : modelZstd.isError st.ret = false :=
    modelZstd_isError_le (modelDStep_ret_le s r.readBufCap a)
  have hstepDef : modelZstd.decompressStream s r.readBufCap a = st := rfl
  have hrem1 : (ZstdInBuffer.mk r.inBuffer.src r.inBuffer.size
      (r.inBuffer.pos + st.consumed)).remaining = a.drop st.consumed :=
    ZstdInBuffer.remaining_advance r.inBuffer st.consumed
  have halen : a.length = r.inBuffer.size - r.inBuffer.pos :=
    ZstdInBuffer.remaining_length r.inBuffer hinSizeEq
  refine ⟨Reader.mk (some st.next) r.ctx r.bufCap r.readBufCap
      (ZstdInBuffer.mk r.inBuffer.src r.inBuffer.size (r.inBuffer.pos + st.consumed))
      (ZstdOutBuffer.mk r.readBufCap st.produced.length)
      st.produced r.pos st.produced.length (if st.ret = 0 then true else r.streamEnded),
    [Event.decompressStep 0 r.readBufCap st.consumed st.ret st.produced.length],
    ?_, rfl, rfl, rfl, ?_, ?_, ?_⟩
  · simp only [readStep]
    rw [← ha, hstepDef, herr]
    by_cases hr0 : st.ret = 0 <;> simp only [hr0, Bool.false_eq_true, if_false, reduceIte]
  · refine ⟨?_, ?_, ?_, ?_, ?_, ?_, ?_⟩
    · simp [hpos]
    · rfl
    · simp only
      omega
    · exact hinSizeEq
    · exact hbufCap
    · intro _
      exact hreadCap
    · refine ⟨tail, ?_, ?_, ?_⟩
      · simpa [hpos] using hfut
      · intro hend
        by_cases hr0 : st.ret = 0
        · exact (hret0 hr0).2
        · simp only [hr0, reduceIte] at hend
          rw [hse] at hend
          cases hend
      · intro hend
        by_cases hr0 : st.ret = 0
        · simp only [hr0, reduceIte] at hend
          cases hend
        · simp only [Option.getD_some, hrem1]
          exact hnext
  · unfold Tr
    simp only [hrem1]
    rw [← ha]
    have := List.length_drop st.consumed a
    omega
  · by_cases hr0 : st.ret = 0
    · right; left
      simp [hr0]
    · by_cases hpe : st.produced.length = 0
      · left
        have hane : a ≠ [] := by
          intro hnil
          exact hr0 (by rw [hst, hdone hnil]; simp [modelDStep])
        have hsd : s ≠ .done := by
          intro hsd
          exact hr0 (by rw [hst, hsd]; simp [modelDStep])
        have hc1 : 1 ≤ st.consumed := hprog hane hsd
        refine ⟨by simpa using hpe, by simp [hr0, hse], List.length_eq_zero.mp hpe, ?_⟩
        unfold Tr
        simp only [hrem1]
        rw [← ha]
        have := List.length_drop st.consumed a
        omega
      · right; right
        simp only
        omega

/-- One refill-and-step iteration of the model reader preserves the
invariant and makes progress. -/
lemma readRefill_model (s : DState) (r : Reader DState) (srem fut : List Nat)
    (evs : List Event)
    (hpos : r.pos = 0) (hse : r.streamEnded = false)
    (hinPosLe : r.inBuffer.pos ≤ r.inBuffer.size)
    (hinSizeEq : r.inBuffer.size = r.inBuffer.src.length)
    (hbufCap : 1 ≤ r.bufCap) (hreadCap : 1 ≤ r.readBufCap)
    (hdec : DDec s (r.inBuffer.remaining ++ srem) fut) :
    ∃ r1 srem1 evs1,
      readRefill modelZstd listSource s r srem evs = .cont r1 srem1 (evs ++ evs1) ∧
      r1.pos = r.pos ∧ RInv r1 srem1 fut ∧ Tr r1 srem1 ≤ Tr r srem ∧
      ((r1.endPos = 0 ∧ r1.streamEnded = false ∧ r1.readBuf = [] ∧
          Tr r1 srem1 + 1 ≤ Tr r srem) ∨
        r1.streamEnded = true ∨ 1 ≤ r1.endPos) := by
  by_cases hx : r.inBuffer.size ≤ r.inBuffer.pos
  · have hremNil : r.inBuffer.remaining = [] := ZstdInBuffer.remaining_eq_nil r.inBuffer hx
    rw [hremNil] at hdec
    simp only [List.nil_append] at hdec
    match srem with
    | [] =>
      have hsd : s = DState.done := (hdec.nil_input).1
      have hread : listSource.read [] r.bufCap = (([], some .eof), []) := by
        simp [listSource]
      have hform : readRefill modelZstd listSource s r [] evs =
          readStep modelZstd s { r with inBuffer := ⟨[], 0, 0⟩ } []
            (evs ++ [Event.sourceRead 0 (some .eof)]) := by
        simp only [readRefill, if_pos hx, hread]
        rfl
      rw [hform]
      obtain ⟨r2, evs2, hstep, hpos2, _, _, hinv2, htr2, hdisj⟩ :=
        readStep_model s { r with inBuffer := ⟨[], 0, 0⟩ } [] fut
          (evs ++ [Event.sourceRead 0 (some .eof)]) hpos hse (by simp) (by simp)
          hbufCap hreadCap (fun _ => hsd)
          (by simpa [ZstdInBuffer.remaining_mk] using hdec)
      have h0 : Tr { r with inBuffer := ⟨[], 0, 0⟩ } ([] : List Nat) = 0 := by
        simp [Tr, ZstdInBuffer.remaining]
      refine ⟨r2, [], Event.sourceRead 0 (some .eof) :: evs2, ?_, hpos2, hinv2, ?_, ?_⟩
      · rw [hstep]
        simp
      · rw [h0] at htr2
        omega
      · rcases hdisj with ⟨h1, h2, h3, h4⟩ | h | h
        · rw [h0] at h4
          exact absurd h4 (by omega)
        · exact Or.inr (Or.inl h)
        · exact Or.inr (Or.inr h)
    | y :: ys =>
      set bs := (y :: ys).take r.bufCap with hbs
      have hbslen : 1 ≤ bs.length := by
        simp [hbs]
        omega
      have hread : listSource.read (y :: ys) r.bufCap =
          ((bs, none), (y :: ys).drop r.bufCap) := by
        simp [listSource]
      have hform : readRefill modelZstd listSource s r (y :: ys) evs =
          readStep modelZstd s { r with inBuffer := ⟨bs, bs.length, 0⟩ }
            ((y :: ys).drop r.bufCap) (evs ++ [Event.sourceRead bs.length none]) := by
        simp only [readRefill, if_pos hx, hread]
        have h0 : 0 < bs.length := hbslen
        simp only [h0, if_pos, reduceIte]
        have hne : ¬ (bs.length = 0) := by omega
        simp only [hne, reduceIte]
      rw [hform]
      have hdec2 : DDec s ((ZstdInBuffer.mk bs bs.length 0).remaining ++ (y :: ys).drop r.bufCap) fut := by
        rw [ZstdInBuffer.remaining_mk, hbs, List.take_append_drop]
        exact hdec
      obtain ⟨r2, evs2, hstep, hpos2, _, _, hinv2, htr2, hdisj⟩ :=
        readStep_model s { r with inBuffer := ⟨bs, bs.length, 0⟩ } ((y :: ys).drop r.bufCap)
          fut (evs ++ [Event.sourceRead bs.length none]) hpos hse (by simp) (by simp)
          hbufCap hreadCap
          (by intro h; rw [ZstdInBuffer.remaining_mk] at h; simp [h] at hbslen)
          hdec2
      have htr1 : Tr { r with inBuffer := ⟨bs, bs.length, 0⟩ } ((y :: ys).drop r.bufCap) =
          Tr r (y :: ys) := by
        simp only [Tr, ZstdInBuffer.remaining_mk, hremNil]
        simp [hbs]
        omega
      refine ⟨r2, _, Event.sourceRead bs.length none :: evs2, ?_, hpos2, hinv2, ?_, ?_⟩
      · rw [hstep]
        simp
      · omega
      · rcases hdisj with ⟨h1, h2, h3, h4⟩ | h | h
        · exact Or.inl ⟨h1, h2, h3, by omega⟩
        · exact Or.inr (Or.inl h)
        · exact Or.inr (Or.inr h)
  · have hform : readRefill modelZstd listSource s r srem evs =
        readStep modelZstd s r srem evs := by
      simp only [readRefill, if_neg hx]
    rw [hform]
    have hrem : 1 ≤ r.inBuffer.remaining.length := by
      rw [ZstdInBuffer.remaining_length r.inBuffer hinSizeEq]
      omega
    obtain ⟨r2, evs2, hstep, hpos2, _, _, hinv2, htr2, hdisj⟩ :=
      readStep_model s r srem fut evs hpos hse hinPosLe hinSizeEq hbufCap hreadCap
        (by intro h; rw [h] at hrem; simp at hrem) hdec
    exact ⟨r2, srem, evs2, hstep, hpos2, hinv2, htr2, hdisj⟩

/-- One body iteration of the model reader's refill loop: always continues,
preserving the invariant, and either makes strict progress on the
compressed bytes or reaches a terminal configuration. -/
lemma readBody_model (r : Reader DState) (srem fut : List Nat)
    (hpos : r.pos = 0) (hend : r.endPos = 0) (hbuf : r.readBuf = [])
    (hse : r.streamEnded = false) (hinv : RInv r srem fut) :
    ∃ r1 srem1 evs, readBody modelZstd listSource r srem = .cont r1 srem1 evs ∧
      r1.pos = 0 ∧ RInv r1 srem1 fut ∧ Tr r1 srem1 ≤ Tr r srem ∧
      ((r1.endPos = 0 ∧ r1.streamEnded = false ∧ r1.readBuf = [] ∧
          Tr r1 srem1 + 1 ≤ Tr r srem) ∨
        r1.streamEnded = true ∨ 1 ≤ r1.endPos) := by
  obtain ⟨engF, hfutEq, hEnd, hDec⟩ := hinv.decode
  have hfe : fut = engF := by
    rw [hfutEq, hbuf]
    simp
  match hs : r.stream with
  | some s =>
    have hdec : DDec s (r.inBuffer.remaining ++ srem) fut := by
      rw [hfe]
      have := hDec hse
      rwa [hs] at this
    obtain ⟨r1, srem1, evs1, hform, hpos1, hinv1, htr1, hdisj⟩ :=
      readRefill_model s r srem fut [] hpos hse hinv.inPosLe hinv.inSizeEq
        hinv.bufCapPos (hinv.readCap (by rw [hs]; simp)) hdec
    refine ⟨r1, srem1, evs1, ?_, by rw [← hpos]; exact hpos1, hinv1, htr1, hdisj⟩
    rw [readBody, hs]
    simpa using hform
  | none =>
    have hcreate : modelZstd.createDStream = some DState.header := rfl
    set cap := if r.readBufCap = 0 then defaultReadBufferSize else r.readBufCap with hcap
    have hcapPos : 1 ≤ cap := by
      rw [hcap]
      split <;> [simp [defaultReadBufferSize]; omega]
    set rr : Reader DState := { r with stream := some DState.header, readBufCap := cap }
      with hrr
    have hdec : DDec DState.header (rr.inBuffer.remaining ++ srem) fut := by
      rw [hfe]
      have := hDec hse
      rw [hs] at this
      simpa [hrr] using this
    obtain ⟨r1, srem1, evs1, hform, hpos1, hinv1, htr1, hdisj⟩ :=
      readRefill_model DState.header rr srem fut [Event.createDStream true]
        (by simpa [hrr] using hpos) (by simpa [hrr] using hse)
        (by simpa [hrr] using hinv.inPosLe) (by simpa [hrr] using hinv.inSizeEq)
        (by simpa [hrr] using hinv.bufCapPos) (by simpa [hrr] using hcapPos) hdec
    have htreq : Tr rr srem = Tr r srem := by
      simp [Tr, hrr]
    refine ⟨r1, srem1, Event.createDStream true :: evs1, ?_,
      by rw [hpos1]; simp [hrr, hpos], hinv1, by omega, ?_⟩
    · rw [readBody, hs, hcreate]
      simpa [hrr, hcap] using hform
    · rcases hdisj with ⟨h1, h2, h3, h4⟩ | h | h
      · exact Or.inl ⟨h1, h2, h3, by omega⟩
      · exact Or.inr (Or.inl h)
      · exact Or.inr (Or.inr h)

/-- The refill loop of the model reader terminates within `Tr + 2`
iterations and lands in a terminal configuration satisfying the
invariant. -/
lemma readLoop_model : ∀ fuel (r : Reader DState) (srem fut : List Nat),
    r.pos = 0 → r.endPos = 0 → r.readBuf = [] → r.streamEnded = false →
    RInv r srem fut → Tr r srem + 2 ≤ fuel →
    ∃ r2 srem2 evs, readLoop modelZstd listSource fuel r srem = some (.fall r2 srem2 evs) ∧
      r2.pos = 0 ∧ RInv r2 srem2 fut ∧ Tr r2 srem2 ≤ Tr r srem ∧
      ¬(r2.endPos = 0 ∧ r2.streamEnded = false) := by
  intro fuel
  induction fuel using Nat.strong_induction_on with
  | _ fuel ih =>
    intro r srem fut hpos hend hbuf hse hinv hfuel
    obtain ⟨n, rfl⟩ : ∃ n, fuel = n + 1 := ⟨fuel - 1, by omega⟩
    obtain ⟨r1, srem1, evs, hbody, hpos1, hinv1, htr1, hdisj⟩ :=
      readBody_model r srem fut hpos hend hbuf hse hinv
    have hcond : (r.endPos = 0 ∧ r.streamEnded = false) := ⟨hend, hse⟩
    have hunf : readLoop modelZstd listSource (n + 1) r srem =
        (readLoop modelZstd listSource n r1 srem1).map (RLoopExit.prepend evs) := by
      simp only [readLoop, hend, hse, hbody, and_self, if_true]
    rcases hdisj with ⟨h1, h2, h3, h4⟩ | hterm | hprod
    · obtain ⟨r2, srem2, evs2, hres, hpos2, hinv2, htr2, hne2⟩ :=
        ih n (by omega) r1 srem1 fut hpos1 h1 h3 h2 hinv1 (by omega)
      refine ⟨r2, srem2, evs ++ evs2, ?_, hpos2, hinv2, by omega, hne2⟩
      rw [hunf, hres]
      simp [RLoopExit.prepend]
    · obtain ⟨m, rfl⟩ : ∃ m, n = m + 1 := ⟨n - 1, by omega⟩
      have hstop : readLoop modelZstd listSource (m + 1) r1 srem1 =
          some (.fall r1 srem1 []) := by
        rw [readLoop]
        rw [if_neg (by simp [hterm])]
      refine ⟨r1, srem1, evs ++ [], ?_, hpos1, hinv1, htr1, by simp [hterm]⟩
      rw [hunf, hstop]
      simp [RLoopExit.prepend]
    · obtain ⟨m, rfl⟩ : ∃ m, n = m + 1 := ⟨n - 1, by omega⟩
      have hstop : readLoop modelZstd listSource (m + 1) r1 srem1 =
          some (.fall r1 srem1 []) := by
        rw [readLoop]
        rw [if_neg (by intro hc; omega)]
      refine ⟨r1, srem1, evs ++ [], ?_, hpos1, hinv1, htr1, by intro hc; omega⟩
      rw [hunf, hstop]
      simp [RLoopExit.prepend]

/-- One `Reader.Read` against the model engine and a buffer source: with a
non-trivial caller buffer and enough fuel it returns the next chunk of the
pending decompressed bytes, or `(0, io.EOF)` exactly when none remain. -/
lemma read_model (r : Reader DState) (srem fut : List Nat) (pcap fi : Nat)
    (hinv : RInv r srem fut) (hpcap : 1 ≤ pcap) (hfi : Tr r srem + 2 ≤ fi) :
    ∃ res, Reader.Read modelZstd listSource r srem pcap fi = some res ∧
      res.bytes = fut.take res.n ∧ RInv res.r res.src (fut.drop res.n) ∧
      Tr res.r res.src ≤ Tr r srem ∧
      (fut = [] → res.n = 0 ∧ res.err = some .eof) ∧
      (fut ≠ [] → 1 ≤ res.n ∧ res.err = none) := by
  obtain ⟨engF, hfutEq, hEnd, hDec⟩ := hinv.decode
  have hlenAftPos : (r.readBuf.drop r.pos).length = r.endPos - r.pos := by
    rw [List.length_drop, hinv.endEq]
  by_cases hserve : r.pos < r.endPos
  · set n := min pcap (r.endPos - r.pos) with hn
    have hn1 : 1 ≤ n := by omega
    have hnle : n ≤ (r.readBuf.drop r.pos).length := by omega
    have hres : Reader.Read modelZstd listSource r srem pcap fi =
        some ⟨n, (r.readBuf.drop r.pos).take n, none, { r with pos := r.pos + n }, srem, []⟩ := by
      rw [Reader.Read, if_pos hserve]
    refine ⟨_, hres, ?_, ?_, le_refl _, ?_, fun _ => ⟨hn1, rfl⟩⟩
    · simp only
      rw [hfutEq, List.take_append_of_le_length hnle]
    · refine ⟨by simp only; omega, by simpa using hinv.endEq,
        by simpa using hinv.inPosLe, by simpa using hinv.inSizeEq,
        by simpa using hinv.bufCapPos, by simpa using hinv.readCap, ?_⟩
      refine ⟨engF, ?_, by simpa using hEnd, by simpa using hDec⟩
      simp only
      rw [hfutEq, List.drop_append_of_le_length hnle, List.drop_drop, Nat.add_comm]
    · intro hfnil
      rw [hfutEq] at hfnil
      have : r.readBuf.drop r.pos = [] := by
        cases List.append_eq_nil.mp hfnil
        assumption
      rw [this] at hlenAftPos
      simp at hlenAftPos
      omega
  · have hdropNil : r.readBuf.drop r.pos = [] := by
      apply List.drop_eq_nil_of_le
      rw [← hinv.endEq]
      omega
    have hfe : fut = engF := by
      rw [hfutEq, hdropNil]
      simp
    by_cases hended : r.streamEnded
    · have hres : Reader.Read modelZstd listSource r srem pcap fi =
          some ⟨0, [], some .eof, r, srem, []⟩ := by
        rw [Reader.Read, if_neg hserve, if_pos hended]
      have hfnil : fut = [] := by
        rw [hfe]
        exact hEnd hended
      refine ⟨_, hres, by simp [hfnil], ?_, le_refl _, fun _ => ⟨rfl, rfl⟩,
        fun hne => absurd hfnil hne⟩
      simpa [hfnil] using hinv
    · have hseF : r.streamEnded = false := by
        simpa using hended
      set r0 : Reader DState := { r with pos := 0, endPos := 0, readBuf := [] } with hr0
      have hinv0 : RInv r0 srem fut := by
        refine ⟨le_refl 0, by simp [hr0], by simpa [hr0] using hinv.inPosLe,
          by simpa [hr0] using hinv.inSizeEq, by simpa [hr0] using hinv.bufCapPos,
          by simpa [hr0] using hinv.readCap, ⟨engF, by simp [hr0, hfe], ?_, ?_⟩⟩
        · intro h
          rw [hr0] at h
          simp only at h
          rw [h] at hseF
          cases hseF
        · intro _
          have := hDec hseF
          simpa [hr0] using this
      have htr0 : Tr r0 srem = Tr r srem := by simp [Tr, hr0]
      obtain ⟨r2, srem2, evs, hloop, hpos2, hinv2, htr2, hne2⟩ :=
        readLoop_model fi r0 srem fut (by simp [hr0]) (by simp [hr0]) (by simp [hr0])
          (by simp [hr0, hseF]) hinv0 (by omega)
      obtain ⟨engF2, hfutEq2, hEnd2, hDec2⟩ := hinv2.decode
      have hread : Reader.Read modelZstd listSource r srem pcap fi =
          (if r2.endPos = 0 then
            if r2.streamEnded then some ⟨0, [], some .eof, r2, srem2, evs⟩
            else some ⟨0, [], none, r2, srem2, evs⟩
          else
            some ⟨min pcap r2.endPos, r2.readBuf.take (min pcap r2.endPos), none,
              { r2 with pos := min pcap r2.endPos }, srem2, evs⟩) := by
        rw [Reader.Read, if_neg hserve, if_neg hended, ← hr0]
        simp only [hloop]
      by_cases hz : r2.endPos = 0
      · have hended2 : r2.streamEnded = true := by
          rcases Bool.eq_false_or_eq_true r2.streamEnded with h | h
          · exact h
          · exact absurd ⟨hz, h⟩ hne2
        have hbuf2 : r2.readBuf = [] := by
          have := hinv2.endEq
          rw [hz] at this
          exact (List.length_eq_zero.mp this.symm)
        have hfnil : fut = [] := by
          rw [hfutEq2, hbuf2, hEnd2 hended2]
          simp
        rw [hread, if_pos hz, if_pos hended2]
        refine ⟨_, rfl, by simp [hfnil], by simpa [hfnil] using hinv2, htr2,
          fun _ => ⟨rfl, rfl⟩, fun hne => absurd hfnil hne⟩
      · set n := min pcap r2.endPos with hn
        have hn1 : 1 ≤ n := by
          have := Nat.pos_of_ne_zero hz
          omega
        have hnle : n ≤ r2.readBuf.length := by
          rw [← hinv2.endEq]
          omega
        have hfutSplit : fut = r2.readBuf ++ engF2 := by
          rw [hfutEq2, hpos2]
          simp
        rw [hread, if_neg hz]
        refine ⟨_, rfl, ?_, ?_, ?_, ?_, fun _ => ⟨hn1, rfl⟩⟩
        · simp only
          rw [hfutSplit, List.take_append_of_le_length hnle]
        · refine ⟨by simp only; omega, by simpa using hinv2.endEq,
            by simpa using hinv2.inPosLe, by simpa using hinv2.inSizeEq,
            by simpa using hinv2.bufCapPos, by simpa using hinv2.readCap, ?_⟩
          refine ⟨engF2, ?_, by simpa using hEnd2, by simpa using hDec2⟩
          simp only
          rw [hfutSplit, List.drop_append_of_le_length hnle]
        · simpa using htr2
        · intro hfnil
          rw [hfutSplit] at hfnil
          have : r2.readBuf = [] := by
            cases List.append_eq_nil.mp hfnil
            assumption
          rw [this] at hnle
          simp at hnle
          omega

/-- `io.ReadAll` over a model reader delivers exactly the pending
decompressed bytes and then stops at `io.EOF`. -/
lemma readAll_model : ∀ (N : Nat) (fut : List Nat), fut.length ≤ N →
    ∀ (r : Reader DState) (srem : List Nat) (fo fi pcap : Nat) (acc : List Nat),
    RInv r srem fut → 1 ≤ pcap → Tr r srem + 2 ≤ fi → fut.length + 1 ≤ fo →
    ∃ r2 srem2, readAll modelZstd listSource fo fi r srem pcap acc =
      some (acc ++ fut, none, r2, srem2) := by
  intro N
  induction N with
  | zero =>
    intro fut hlen r srem fo fi pcap acc hinv hpcap hfi hfo
    have hfnil : fut = [] := List.length_eq_zero.mp (by omega)
    subst hfnil
    obtain ⟨fo1, rfl⟩ : ∃ m, fo = m + 1 := ⟨fo - 1, by omega⟩
    obtain ⟨res, hread, hbytes, hinv2, htr2, hnil, _⟩ :=
      read_model r srem [] pcap fi hinv hpcap hfi
    obtain ⟨hn0, herr⟩ := hnil rfl
    refine ⟨res.r, res.src, ?_⟩
    rw [readAll, hread]
    simp only [herr, hbytes, hn0]
    simp
  | succ N ih =>
    intro fut hlen r srem fo fi pcap acc hinv hpcap hfi hfo
    obtain ⟨fo1, rfl⟩ : ∃ m, fo = m + 1 := ⟨fo - 1, by omega⟩
    obtain ⟨res, hread, hbytes, hinv2, htr2, hnil, hcons⟩ :=
      read_model r srem fut pcap fi hinv hpcap hfi
    match hfut : fut with
    | [] =>
      obtain ⟨hn0, herr⟩ := hnil rfl
      refine ⟨res.r, res.src, ?_⟩
      rw [readAll, hread]
      simp only [herr, hbytes, hn0]
      simp
    | x :: t =>
      obtain ⟨hn1, herr⟩ := hcons (by simp)
      have hdlen : ((x :: t).drop res.n).length ≤ N := by
        simp only [List.length_drop] at *
        simp at hlen ⊢
        omega
      obtain ⟨r2, srem2, hrest⟩ :=
        ih ((x :: t).drop res.n) hdlen res.r res.src fo1 fi pcap
          (acc ++ (x :: t).take res.n) hinv2 hpcap (by omega)
          (by simp only [List.length_drop]; simp at hfo ⊢; omega)
      refine ⟨r2, srem2, ?_⟩
      rw [readAll, hread]
      simp only [herr, hbytes]
      rw [hrest, List.append_assoc, List.take_append_drop]

/-! ## Model lemmas for the Writer -/

lemma modelCStep_continue (input : List Nat) (outCap : Nat) (hne : input ≠ [])
    (hcap : 2 ≤ outCap) :
    modelCStep () outCap input EndContinue =
      ⟨1, min (min input.length 255) (outCap - 1), min (min input.length 255) (outCap - 1) ::
        input.take (min (min input.length 255) (outCap - 1)), ()⟩ := by
  match input, hne with
  | x :: t, _ =>
    have h1 : ¬ (EndContinue = EndEnd ∧ (x :: t : List Nat) = []) := by
      simp [EndContinue, EndEnd]
    have h2 : ¬ (EndContinue = EndFlush ∧ (x :: t : List Nat) = []) := by
      simp [EndContinue, EndFlush]
    have hk : ¬ (min (min (x :: t).length 255) (outCap - 1) = 0) := by
      simp only [List.length_cons]
      omega
    simp only [modelCStep, if_neg h1, if_neg h2]
    rw [if_neg hk]

lemma modelZstd_isError_cstep (s : Unit) (cap : Nat) (a : List Nat) (mode : Nat) :
    modelZstd.isError (modelCStep s cap a mode).ret = false := by
  have hle : (modelCStep s cap a mode).ret ≤ 1 := by
    simp only [modelCStep]
    split
    · split <;> simp
    · split
      · simp
      · split
        · simp
        · split <;> simp
  have hne : ¬ ((modelCStep s cap a mode).ret = modelErrCode) := by
    unfold modelErrCode
    omega
  simp [modelZstd, hne]

/-- The write loop of the model writer consumes the whole input, forwarding
a chunked encoding of the unconsumed input to a buffer sink. -/
lemma writeLoop_model : ∀ (n fuel : Nat) (w : Writer Unit) (sink : List Nat),
    w.inBuffer.size = w.inBuffer.src.length →
    w.inBuffer.pos ≤ w.inBuffer.size →
    2 ≤ w.bufferCap →
    n = w.inBuffer.size - w.inBuffer.pos →
    n < fuel →
    ∃ enc w1 evs, writeLoop modelZstd bufferSink fuel () w sink =
        some ⟨none, (), w1, sink ++ enc, evs⟩ ∧
      Chunked w.inBuffer.remaining enc ∧
      w1.inBuffer.src = w.inBuffer.src ∧ w1.inBuffer.size = w.inBuffer.size ∧
      w1.inBuffer.pos = w.inBuffer.size ∧ w1.bufferCap = w.bufferCap ∧
      w1.level = w.level ∧ w1.ctx = w.ctx ∧ w1.stream = w.stream := by
  intro n
  induction n using Nat.strong_induction_on with
  | _ n ih =>
    intro fuel w sink hsize hposle hcap hn hfuel
    obtain ⟨fuel1, rfl⟩ : ∃ m, fuel = m + 1 := ⟨fuel - 1, by omega⟩
    by_cases hlt : w.inBuffer.pos < w.inBuffer.size
    · have hremlen : w.inBuffer.remaining.length = w.inBuffer.size - w.inBuffer.pos :=
        ZstdInBuffer.remaining_length w.inBuffer hsize
      have hremne : w.inBuffer.remaining ≠ [] := by
        intro hnil
        rw [hnil] at hremlen
        simp at hremlen
        omega
      set k := min (min w.inBuffer.remaining.length 255) (w.bufferCap - 1) with hk
      have hk1 : 1 ≤ k := by
        have : 1 ≤ w.inBuffer.remaining.length := by omega
        omega
      have hstep : modelZstd.compressStream2 () w.bufferCap w.inBuffer.remaining EndContinue =
          ⟨1, k, k :: w.inBuffer.remaining.take k, ()⟩ := by
        show modelCStep () w.bufferCap w.inBuffer.remaining EndContinue = _
        rw [modelCStep_continue w.inBuffer.remaining w.bufferCap hremne hcap]
      have herr : modelZstd.isError (1 : Nat) = false := modelZstd_isError_le (by omega)
      have hkle : k ≤ w.inBuffer.remaining.length := by omega
      have hmin : min k w.inBuffer.remaining.length = k := min_eq_left hkle
      set w1 : Writer Unit :=
        { w with inBuffer := { w.inBuffer with pos := w.inBuffer.pos + k },
                 outBuffer := ⟨w.bufferCap, k + 1⟩ }
        with hw1
      have hform : writeLoop modelZstd bufferSink (fuel1 + 1) () w sink =
          (writeLoop modelZstd bufferSink fuel1 () w1
            (sink ++ (k :: w.inBuffer.remaining.take k))).map fun o =>
            ⟨o.err, o.s, o.w, o.sink,
              Event.compressStep 0 w.bufferCap EndContinue k 1 (k + 1) ::
                Event.sinkWrite (k + 1) none :: o.events⟩ := by
        rw [writeLoop, if_pos hlt]
        simp only [hstep, herr, Bool.false_eq_true, if_false, List.length_cons,
          List.length_take, hmin, bufferSink, Nat.succ_pos, if_true, hw1]
      have hrem1 : w1.inBuffer.remaining = w.inBuffer.remaining.drop k := by
        rw [hw1]
        exact ZstdInBuffer.remaining_advance w.inBuffer k
      obtain ⟨enc, w2, evs2, hres, hchunk, hsrc2, hsize2, hpos2, hcap2, hlvl2, hctx2, hstr2⟩ :=
        ih (n - k) (by omega) fuel1 w1 (sink ++ (k :: w.inBuffer.remaining.take k))
          (by rw [hw1]; exact hsize) (by rw [hw1]; simp only; omega)
          (by rw [hw1]; exact hcap) (by rw [hw1]; simp only; omega) (by omega)
      refine ⟨(k :: w.inBuffer.remaining.take k) ++ enc, w2,
        Event.compressStep 0 w.bufferCap EndContinue k 1 (k + 1) ::
          Event.sinkWrite (k + 1) none :: evs2, ?_, ?_, ?_, ?_, ?_, ?_, ?_, ?_, ?_⟩
      · rw [hform, hres]
        simp [List.append_assoc]
      · rw [hrem1] at hchunk
        exact Chunked.cons k w.inBuffer.remaining enc hk1 (by omega) (by omega) hchunk
      · rw [hsrc2, hw1]
      · rw [hsize2, hw1]
      · rw [hpos2, hw1]
      · rw [hcap2, hw1]
      · rw [hlvl2, hw1]
      · rw [hctx2, hw1]
      · rw [hstr2, hw1]
    · have hpose : w.inBuffer.pos = w.inBuffer.size := by omega
      have hremnil : w.inBuffer.remaining = [] :=
        ZstdInBuffer.remaining_eq_nil w.inBuffer (by omega)
      refine ⟨[], w, [], ?_, by rw [hremnil]; exact Chunked.nil, rfl, rfl, hpose, rfl, rfl,
        rfl, rfl⟩
      rw [writeLoop, if_neg hlt]
      simp

/-- `Writer.Write` against the model engine and a buffer sink: consumes the
whole input, appends a chunked encoding of it to the sink, and returns
`len(p)` with no error. -/
lemma write_model (w : Writer Unit) (sink p : List Nat) (fuel : Nat)
    (hcap : 2 ≤ w.bufferCap) (hne : p ≠ []) (hfuel : p.length < fuel) :
    ∃ enc w1 evs, Writer.Write modelZstd bufferSink w sink p fuel =
        some ⟨p.length, none, w1, sink ++ enc, evs⟩ ∧
      Chunked p enc ∧ w1.stream = some () ∧ w1.bufferCap = w.bufferCap ∧
      w1.ctx = w.ctx ∧ w1.level = w.level := by
  have hlne : ¬ (p.length = 0) := by
    intro h
    exact hne (List.length_eq_zero.mp h)
  set wIn : Writer Unit := { w with inBuffer := ⟨p, p.length, 0⟩ } with hwIn
  have hrem : wIn.inBuffer.remaining = p := ZstdInBuffer.remaining_mk p
  obtain ⟨enc, w1, evs, hloop, hchunk, hsrc1, hsize1, hpos1, hcap1, hlvl1, hctx1, hstr1⟩ :=
    writeLoop_model p.length fuel wIn sink rfl (by simp) hcap (by simp) hfuel
  rw [hrem] at hchunk
  cases hws : w.stream with
  | some s =>
    cases s
    refine ⟨enc, { w1 with stream := some () }, evs, ?_, hchunk, rfl, hcap1, hctx1, hlvl1⟩
    rw [Writer.Write, if_neg hlne]
    split
    · next s2 heq =>
      cases s2
      rw [← hwIn, hloop]
      simp
    · next heq =>
      rw [hws] at heq
      cases heq
  | none =>
    refine ⟨enc, { w1 with stream := some () }, Event.createCStream true :: evs, ?_, hchunk,
      rfl, hcap1, hctx1, hlvl1⟩
    rw [Writer.Write, if_neg hlne]
    split
    · next s2 heq =>
      rw [hws] at heq
      cases heq
    · next heq =>
      show (writeLoop modelZstd bufferSink fuel () wIn sink).map _ = _
      rw [hloop]
      simp

/-- `Writer.Flush` against the model engine: one `EndFlush` step completes
immediately, emitting nothing and keeping the stream alive. -/
lemma flush_model (w : Writer Unit) (sink : List Nat) (fuel : Nat)
    (hstream : w.stream = some ()) (hfuel : 1 ≤ fuel) :
    ∃ c, Writer.Flush modelZstd bufferSink w sink fuel = some c ∧
      c.err = none ∧ c.sink = sink ∧ c.w.stream = some () ∧
      c.w.bufferCap = w.bufferCap ∧ c.w.ctx = w.ctx ∧ c.w.level = w.level := by
  obtain ⟨f1, rfl⟩ : ∃ m, fuel = m + 1 := ⟨fuel - 1, by omega⟩
  set wIn : Writer Unit := { w with inBuffer := ⟨[], 0, 0⟩ } with hwIn
  have hrem : wIn.inBuffer.remaining = [] := rfl
  have hstep : modelZstd.compressStream2 () wIn.bufferCap wIn.inBuffer.remaining EndFlush =
      ⟨0, 0, [], ()⟩ := by
    rw [hrem]
    show modelCStep () wIn.bufferCap [] EndFlush = _
    simp [modelCStep, EndFlush, EndEnd]
  have herr : modelZstd.isError (0 : Nat) = false := modelZstd_isError_le (by omega)
  have hterm : termLoop modelZstd bufferSink EndFlush (f1 + 1) () wIn sink =
      some ⟨none, (),
        { wIn with inBuffer := { wIn.inBuffer with pos := wIn.inBuffer.pos + 0 },
                   outBuffer := ⟨wIn.bufferCap, 0⟩ }, sink,
        [Event.compressStep 0 wIn.bufferCap EndFlush 0 0 0]⟩ := by
    rw [termLoop]
    simp only [hstep, herr, Bool.false_eq_true, if_false, List.length_nil, lt_irrefl,
      reduceIte]
  have hflush : Writer.Flush modelZstd bufferSink w sink (f1 + 1) =
      some ⟨none,
        { wIn with stream := some (),
                   inBuffer := { wIn.inBuffer with pos := wIn.inBuffer.pos + 0 },
                   outBuffer := ⟨wIn.bufferCap, 0⟩ }, sink,
        [Event.compressStep 0 wIn.bufferCap EndFlush 0 0 0]⟩ := by
    rw [Writer.Flush]
    split
    · next heq =>
      rw [hstream] at heq
      cases heq
    · next s2 heq =>
      cases s2
      rw [← hwIn, hterm]
      rfl
  exact ⟨_, hflush, rfl, rfl, rfl, by simp [hwIn], by simp [hwIn], by simp [hwIn]⟩

/-- `Writer.Close` against the model engine: one `EndEnd` step emits the
frame terminator, the loop completes, and the stream and context are
released. -/
lemma close_model (w : Writer Unit) (sink : List Nat) (fuel : Nat)
    (hcap : 1 ≤ w.bufferCap) (hstream : w.stream = some ()) (hfuel : 1 ≤ fuel) :
    ∃ c, Writer.Close modelZstd bufferSink w sink fuel = some c ∧
      c.err = none ∧ c.sink = sink ++ [0] ∧ c.w.stream = none ∧ c.w.ctx = false := by
  obtain ⟨f1, rfl⟩ : ∃ m, fuel = m + 1 := ⟨fuel - 1, by omega⟩
  set wIn : Writer Unit := { w with inBuffer := ⟨[], 0, 0⟩ } with hwIn
  have hrem : wIn.inBuffer.remaining = [] := rfl
  have hstep : modelZstd.compressStream2 () wIn.bufferCap wIn.inBuffer.remaining EndEnd =
      ⟨0, 0, [0], ()⟩ := by
    rw [hrem]
    show modelCStep () wIn.bufferCap [] EndEnd = _
    have : 1 ≤ wIn.bufferCap := hcap
    simp [modelCStep, this]
  have herr : modelZstd.isError (0 : Nat) = false := modelZstd_isError_le (by omega)
  have hsink : bufferSink.write sink [0] = ((1, none), sink ++ [0]) := rfl
  have hterm : termLoop modelZstd bufferSink EndEnd (f1 + 1) () wIn sink =
      some ⟨none, (),
        { wIn with inBuffer := { wIn.inBuffer with pos := wIn.inBuffer.pos + 0 },
                   outBuffer := ⟨wIn.bufferCap, 1⟩ }, sink ++ [0],
        [Event.compressStep 0 wIn.bufferCap EndEnd 0 0 1, Event.sinkWrite 1 none]⟩ := by
    rw [termLoop]
    simp only [hstep, herr, Bool.false_eq_true, if_false, List.length_cons, List.length_nil,
      Nat.succ_pos, if_true, hsink, reduceIte]
  have hclose : Writer.Close modelZstd bufferSink w sink (f1 + 1) =
      some ⟨none,
        { wIn with stream := none, ctx := false,
                   inBuffer := { wIn.inBuffer with pos := wIn.inBuffer.pos + 0 },
                   outBuffer := ⟨wIn.bufferCap, 1⟩ }, sink ++ [0],
        [Event.compressStep 0 wIn.bufferCap EndEnd 0 0 1, Event.sinkWrite 1 none] ++
          [Event.freeCStream] ++ (if w.ctx then [Event.freeCCtx] else [])⟩ := by
    rw [Writer.Close]
    split
    · next heq =>
      rw [hstream] at heq
      cases heq
    · next s2 heq =>
      cases s2
      rw [← hwIn, hterm]
      rfl
  exact ⟨_, hclose, rfl, rfl, rfl, rfl⟩

/-! ## Usage scenarios -/

/-- One-shot round trip at default `maxSize`:
`Decompress(Compress(b, level), 0)`. -/
def osRoundTrip (z : Zstd σc σd) (b : List Nat) (level : Int) : Option (List Nat) :=
  match Zstd.Compress z b level with
  | ⟨some c, none, _⟩ =>
    match Zstd.Decompress z c 0 with
    | ⟨some d, none, _⟩ => some d
    | _ => none
  | _ => none

/-- Streaming compression of `b`: one `Write` to a fresh `NewWriter` over a
buffer sink, then `Close`; yields the sink contents when both succeed. -/
def compressViaWriter (z : Zstd σc σd) (level : Int) (b : List Nat)
    (f1 f2 : Nat) : Option (List Nat) :=
  match Writer.Write z bufferSink (NewWriter σc level) [] b f1 with
  | none => none
  | some res =>
    match res.err with
    | some _ => none
    | none =>
      match Writer.Close z bufferSink res.w res.sink f2 with
      | none => none
      | some c =>
        match c.err with
        | some _ => none
        | none => some c.sink

/-- Streaming decompression of a byte buffer: `io.ReadAll` over a fresh
`NewReader` on a buffer source. -/
def decompressViaReader (z : Zstd σc σd) (s : List Nat) (fo fi pcap : Nat) :
    Option (List Nat) :=
  match readAll z listSource fo fi (NewReader σd) s pcap [] with
  | none => none
  | some (bytes, none, _, _) => some bytes
  | some (_, some _, _, _) => none

/-- The flush-then-continue scenario: write `a`, flush, write `b`, close. -/
def flushScenario (z : Zstd σc σd) (level : Int) (a b : List Nat)
    (f1 f2 f3 f4 : Nat) : Option (List Nat) :=
  match Writer.Write z bufferSink (NewWriter σc level) [] a f1 with
  | none => none
  | some res1 =>
    match res1.err with
    | some _ => none
    | none =>
      match Writer.Flush z bufferSink res1.w res1.sink f2 with
      | none => none
      | some fr =>
        match fr.err with
        | some _ => none
        | none =>
          match Writer.Write z bufferSink fr.w fr.sink b f3 with
          | none => none
          | some res2 =>
            match res2.err with
            | some _ => none
            | none =>
              match Writer.Close z bufferSink res2.w res2.sink f4 with
              | none => none
              | some c =>
                match c.err with
                | some _ => none
                | none => some c.sink

/-! ## Divergence of the refill loop without progress -/

/-- If one body iteration maps a loop state to itself, the refill loop
never exits: it spins until fuel runs out, for every fuel. -/
lemma readLoop_stationary (z : Zstd σc σd) (so : Source ρ) (r : Reader σd) (src : ρ)
    (hcond : r.endPos = 0 ∧ r.streamEnded = false)
    (hbody : ∃ evs, readBody z so r src = .cont r src evs) :
    ∀ fuel, readLoop z so fuel r src = none := by
  intro fuel
  induction fuel with
  | zero => rfl
  | succ n ih =>
    obtain ⟨evs, hb⟩ := hbody
    rw [readLoop, if_pos hcond]
    simp only [hb, ih, Option.map_none']

/-- The state the model reader reaches after one iteration over an empty
source: stream created, nothing staged, nothing consumed. -/
def emptyR1 : Reader DState :=
  ⟨some .header, true, defaultReadBufferSize, defaultReadBufferSize, ⟨[], 0, 0⟩,
    ⟨defaultReadBufferSize, 0⟩, [], 0, 0, false⟩

/-- Against an empty source the model reader's refill loop never exits:
`decompressStream` keeps reporting that it needs more input. -/
lemma readLoop_model_empty : ∀ fuel,
    readLoop modelZstd listSource fuel (NewReader DState) [] = none := by
  have hstat : ∀ fuel, readLoop modelZstd listSource fuel emptyR1 [] = none :=
    readLoop_stationary modelZstd listSource emptyR1 [] ⟨rfl, rfl⟩ ⟨_, rfl⟩
  intro fuel
  cases fuel with
  | zero => rfl
  | succ n =>
    rw [readLoop, if_pos ⟨rfl, rfl⟩]
    obtain ⟨evs, hb⟩ : ∃ evs, readBody modelZstd listSource (NewReader DState) [] =
        .cont emptyR1 [] evs := ⟨_, rfl⟩
    simp only [hb, hstat n, Option.map_none']

/-- A `Read` whose refill loop runs out of fuel has no result. -/
lemma read_none_of_loop_none (z : Zstd σc σd) (so : Source ρ) (r : Reader σd) (src : ρ)
    (pcap fuel : Nat) (hserve : ¬ r.pos < r.endPos) (hended : r.streamEnded = false)
    (hloop : readLoop z so fuel { r with pos := 0, endPos := 0, readBuf := [] } src = none) :
    Reader.Read z so r src pcap fuel = none := by
  rw [Reader.Read, if_neg hserve, if_neg (by simp [hended])]
  simp only [hloop]

/-- `Reader.Read` over the model engine and an empty source never returns,
whatever the fuel: the stream-ended flag is never set because no frame was
ever started, and the loop has no stall safeguard. -/
lemma read_model_empty (pcap : Nat) : ∀ fuel,
    Reader.Read modelZstd listSource (NewReader DState) [] pcap fuel = none := by
  intro fuel
  exact read_none_of_loop_none modelZstd listSource (NewReader DState) [] pcap fuel
    (by simp [NewReader]) rfl (readLoop_model_empty fuel)

/-- The state the reader over the always-stalling engine reaches after one
iteration over an empty source. -/
def stallR1 : Reader Unit :=
  ⟨some (), true, defaultReadBufferSize, defaultReadBufferSize, ⟨[], 0, 0⟩,
    ⟨defaultReadBufferSize, 0⟩, [], 0, 0, false⟩

/-- Against the always-stalling engine the refill loop never exits. -/
lemma readLoop_stall : ∀ fuel,
    readLoop stallZstd listSource fuel (NewReader Unit) [] = none := by
  have hstat : ∀ fuel, readLoop stallZstd listSource fuel stallR1 [] = none :=
    readLoop_stationary stallZstd listSource stallR1 [] ⟨rfl, rfl⟩ ⟨_, rfl⟩
  intro fuel
  cases fuel with
  | zero => rfl
  | succ n =>
    rw [readLoop, if_pos ⟨rfl, rfl⟩]
    obtain ⟨evs, hb⟩ : ∃ evs, readBody stallZstd listSource (NewReader Unit) [] =
        .cont stallR1 [] evs := ⟨_, rfl⟩
    simp only [hb, hstat n, Option.map_none']

/-- `Reader.Read` over the always-stalling engine never returns for any
amount of fuel. -/
lemma read_stall (pcap : Nat) : ∀ fuel,
    Reader.Read stallZstd listSource (NewReader Unit) [] pcap fuel = none := by
  intro fuel
  exact read_none_of_loop_none stallZstd listSource (NewReader Unit) [] pcap fuel
    (by simp [NewReader]) rfl (readLoop_stall fuel)

/-! ## General lemmas about the adapters, for an arbitrary engine -/

/-- Total input bytes consumed by the engine across the recorded
compression steps. -/
def eventsConsumed (evs : List Event) : Nat :=
  (evs.map fun e =>
    match e with
    | .compressStep _ _ _ c _ _ => c
    | _ => 0).sum

/-- The output-cursor discipline of one recorded step: the filled-so-far
position was 0 when the engine was called, and after the call it does not
exceed the capacity of the staging region handed to the engine. -/
def cursorOk : Event → Bool
  | .compressStep outPosAtCall outCap _ _ _ resultOutPos =>
    decide (outPosAtCall = 0) && decide (resultOutPos ≤ outCap)
  | .decompressStep outPosAtCall outCap _ _ resultOutPos =>
    decide (outPosAtCall = 0) && decide (resultOutPos ≤ outCap)
  | _ => true

/-- A recorded decompression step whose return hint signalled frame
completion. -/
def frameCompleteB : Event → Bool
  | .decompressStep _ _ _ ret _ => decide (ret = 0)
  | _ => false

/-- A recorded decompression step that makes the reader mark the stream
ended: frame completion or a codec fault. -/
def endedEvent (z : Zstd σc σd) : Event → Bool
  | .decompressStep _ _ _ ret _ => decide (ret = 0) || z.isError ret
  | _ => false

/-- The compression loop of `Writer.Write`: the final input-cursor position
accounts exactly for the engine's consumed counts, the loop only exits
successfully with the input consumed, the session is never freed here, and
a cursor-respecting engine keeps every recorded step within bounds. -/
lemma writeLoop_spec (z : Zstd σc σd) (sk : Sink τ) : ∀ (fuel : Nat) (s : σc)
    (w : Writer σc) (sink : τ) (o : WOut σc τ),
    writeLoop z sk fuel s w sink = some o →
    o.w.inBuffer.pos = w.inBuffer.pos + eventsConsumed o.events ∧
    o.w.inBuffer.size = w.inBuffer.size ∧
    o.w.bufferCap = w.bufferCap ∧
    (o.err = none → ¬ o.w.inBuffer.pos < o.w.inBuffer.size) ∧
    Event.freeCStream ∉ o.events ∧
    (z.CWF → o.events.all cursorOk = true) := by
  intro fuel
  induction fuel with
  | zero => intro s w sink o h; cases h
  | succ n ih =>
    intro s w sink o h
    rw [writeLoop] at h
    by_cases hlt : w.inBuffer.pos < w.inBuffer.size
    · rw [if_pos hlt] at h
      simp only at h
      set st := z.compressStream2 s w.bufferCap w.inBuffer.remaining EndContinue with hst
      have hbound : z.CWF → st.produced.length ≤ w.bufferCap := fun hwf =>
        (hst ▸ (hwf s w.bufferCap w.inBuffer.remaining EndContinue).2)
      by_cases herr : z.isError st.ret = true
      · rw [if_pos herr] at h
        obtain rfl : (⟨some (.codec st.ret), st.next,
            { w with inBuffer := { w.inBuffer with pos := w.inBuffer.pos + st.consumed },
                     outBuffer := ⟨w.bufferCap, st.produced.length⟩ }, sink,
            [Event.compressStep 0 w.bufferCap EndContinue st.consumed st.ret
              st.produced.length]⟩ : WOut σc τ) = o := Option.some.inj h
        refine ⟨by simp [eventsConsumed], rfl, rfl, by simp, by simp, ?_⟩
        intro hwf
        simp [cursorOk]
        exact hbound hwf
      · rw [if_neg herr] at h
        by_cases hprod : 0 < st.produced.length
        · rw [if_pos hprod] at h
          rcases hsk : sk.write sink st.produced with ⟨⟨wn, werr⟩, sink2⟩
          rw [hsk] at h
          simp only at h
          match werr with
          | some e =>
            simp only at h
            obtain rfl : (⟨some e, st.next,
                { w with inBuffer := { w.inBuffer with pos := w.inBuffer.pos + st.consumed },
                         outBuffer := ⟨w.bufferCap, st.produced.length⟩ }, sink2,
                [Event.compressStep 0 w.bufferCap EndContinue st.consumed st.ret
                  st.produced.length, Event.sinkWrite wn (some e)]⟩ : WOut σc τ) = o :=
              Option.some.inj h
            refine ⟨by simp [eventsConsumed], rfl, rfl, by simp, by simp, ?_⟩
            intro hwf
            simp [cursorOk]
            exact hbound hwf
          | none =>
            simp only at h
            obtain ⟨o2, ho2, rfl⟩ := Option.map_eq_some'.mp h
            obtain ⟨hpos, hsize, hcap, hsucc, hfree, hcurs⟩ := ih st.next _ sink2 o2 ho2
            refine ⟨?_, by simpa using hsize, by simpa using hcap, by simpa using hsucc, ?_, ?_⟩
            · simp only [eventsConsumed, List.map_cons, List.sum_cons] at hpos ⊢
              omega
            · simp only [List.mem_cons]
              rintro (h1 | h1 | h1)
              · cases h1
              · cases h1
              · exact hfree h1
            · intro hwf
              have h2 := hcurs hwf
              simp [cursorOk, h2]
              exact hbound hwf
        · rw [if_neg hprod] at h
          obtain ⟨o2, ho2, rfl⟩ := Option.map_eq_some'.mp h
          obtain ⟨hpos, hsize, hcap, hsucc, hfree, hcurs⟩ := ih st.next _ sink o2 ho2
          refine ⟨?_, by simpa using hsize, by simpa using hcap, by simpa using hsucc, ?_, ?_⟩
          · simp only [eventsConsumed, List.map_cons, List.sum_cons] at hpos ⊢
            omega
          · simp only [List.mem_cons]
            rintro (h1 | h1)
            · cases h1
            · exact hfree h1
          · intro hwf
            have h2 := hcurs hwf
            simp [cursorOk, h2]
            exact hbound hwf
    · rw [if_neg hlt] at h
      obtain rfl : (⟨none, s, w, sink, []⟩ : WOut σc τ) = o := Option.some.inj h
      exact ⟨by simp [eventsConsumed], rfl, rfl, fun _ => hlt, by simp, by simp⟩

/-- The flush/close loop never frees the session itself, and a
cursor-respecting engine keeps every recorded step within bounds. -/
lemma termLoop_spec (z : Zstd σc σd) (sk : Sink τ) (mode : Nat) : ∀ (fuel : Nat) (s : σc)
    (w : Writer σc) (sink : τ) (o : WOut σc τ),
    termLoop z sk mode fuel s w sink = some o →
    Event.freeCStream ∉ o.events ∧ (z.CWF → o.events.all cursorOk = true) := by
  intro fuel
  induction fuel with
  | zero => intro s w sink o h; cases h
  | succ n ih =>
    intro s w sink o h
    rw [termLoop] at h
    simp only at h
    set st := z.compressStream2 s w.bufferCap w.inBuffer.remaining mode with hst
    have hbound : z.CWF → st.produced.length ≤ w.bufferCap := fun hwf =>
      (hst ▸ (hwf s w.bufferCap w.inBuffer.remaining mode).2)
    by_cases herr : z.isError st.ret = true
    · rw [if_pos herr] at h
      obtain rfl := Option.some.inj h
      refine ⟨by simp, ?_⟩
      intro hwf
      simp [cursorOk]
      exact hbound hwf
    · rw [if_neg herr] at h
      by_cases hprod : 0 < st.produced.length
      · rw [if_pos hprod] at h
        rcases hsk : sk.write sink st.produced with ⟨⟨wn, werr⟩, sink2⟩
        rw [hsk] at h
        simp only at h
        match werr with
        | some e =>
          simp only at h
          obtain rfl := Option.some.inj h
          refine ⟨by simp, ?_⟩
          intro hwf
          simp [cursorOk]
          exact hbound hwf
        | none =>
          simp only at h
          by_cases hret : st.ret = 0
          · rw [if_pos hret] at h
            obtain rfl := Option.some.inj h
            refine ⟨by simp, ?_⟩
            intro hwf
            simp [cursorOk]
            exact hbound hwf
          · rw [if_neg hret] at h
            obtain ⟨o2, ho2, rfl⟩ := Option.map_eq_some'.mp h
            obtain ⟨hfree, hcurs⟩ := ih st.next _ sink2 o2 ho2
            refine ⟨?_, ?_⟩
            · simp only [List.mem_cons]
              rintro (h1 | h1 | h1)
              · cases h1
              · cases h1
              · exact hfree h1
            · intro hwf
              have h2 := hcurs hwf
              simp [cursorOk, h2]
              exact hbound hwf
      · rw [if_neg hprod] at h
        by_cases hret : st.ret = 0
        · rw [if_pos hret] at h
          obtain rfl := Option.some.inj h
          refine ⟨by simp, ?_⟩
          intro hwf
          simp [cursorOk]
          exact hbound hwf
        · rw [if_neg hret] at h
          obtain ⟨o2, ho2, rfl⟩ := Option.map_eq_some'.mp h
          obtain ⟨hfree, hcurs⟩ := ih st.next _ sink o2 ho2
          refine ⟨?_, ?_⟩
          · simp only [List.mem_cons]
            rintro (h1 | h1)
            · cases h1
            · exact hfree h1
          · intro hwf
            have h2 := hcurs hwf
            simp [cursorOk, h2]
            exact hbound hwf

lemma frameCompleteB_endedEvent (z : Zstd σc σd) (e : Event)
    (h : frameCompleteB e = true) : endedEvent z e = true := by
  match e with
  | .decompressStep a b c ret d =>
    simp only [frameCompleteB, decide_eq_true_eq] at h
    simp [endedEvent, h]

lemma any_endedEvent_of_frame (z : Zstd σc σd) (evs : List Event)
    (h : evs.any frameCompleteB = true) : evs.any (endedEvent z) = true := by
  rw [List.any_eq_true] at h ⊢
  obtain ⟨e, he, hf⟩ := h
  exact ⟨e, he, frameCompleteB_endedEvent z e hf⟩

/-- One engine call of the refill loop: it never returns `io.EOF`, marks
the stream ended only at frame completion or a codec fault, frees nothing,
and respects the cursor bounds under a well-formed engine. -/
lemma readStep_spec (z : Zstd σc σd) (s : σd) (r : Reader σd) (src : ρ)
    (evs0 : List Event) (h0free : Event.freeDStream ∉ evs0)
    (h0ok : z.DWF → evs0.all cursorOk = true) :
    match readStep z s r src evs0 with
    | .ret _ _ err r1 _ evs => err ≠ some .eof ∧ err ≠ none ∧
        (r1.streamEnded = true → r.streamEnded = true ∨ evs.any (endedEvent z) = true) ∧
        Event.freeDStream ∉ evs ∧ (z.DWF → evs.all cursorOk = true)
    | .brk _ _ _ => False
    | .cont r1 _ evs =>
        (r1.streamEnded = true → r.streamEnded = true ∨ evs.any frameCompleteB = true) ∧
        Event.freeDStream ∉ evs ∧ (z.DWF → evs.all cursorOk = true) := by
  rw [readStep]
  simp only
  set st := z.decompressStream s r.readBufCap r.inBuffer.remaining with hst
  have hbound : z.DWF → st.produced.length ≤ r.readBufCap := fun hwf =>
    (hst ▸ (hwf s r.readBufCap r.inBuffer.remaining).2)
  have hev : ∀ hwf : z.DWF, (evs0 ++ [Event.decompressStep 0 r.readBufCap st.consumed st.ret
      st.produced.length]).all cursorOk = true := by
    intro hwf
    rw [List.all_append]
    simp [h0ok hwf, cursorOk, hbound hwf]
  have hfr : Event.freeDStream ∉ evs0 ++ [Event.decompressStep 0 r.readBufCap st.consumed
      st.ret st.produced.length] := by
    rw [List.mem_append]
    rintro (h1 | h1)
    · exact h0free h1
    · simp at h1
  by_cases herr : z.isError st.ret = true
  · rw [if_pos herr]
    refine ⟨by simp, by simp, ?_, hfr, hev⟩
    intro _
    right
    rw [List.any_eq_true]
    refine ⟨Event.decompressStep 0 r.readBufCap st.consumed st.ret st.produced.length,
      by simp, ?_⟩
    simp [endedEvent, herr]
  · rw [if_neg herr]
    by_cases hret : st.ret = 0
    · rw [if_pos hret]
      refine ⟨?_, hfr, hev⟩
      intro _
      right
      rw [List.any_eq_true]
      refine ⟨Event.decompressStep 0 r.readBufCap st.consumed st.ret st.produced.length,
        by simp, ?_⟩
      simp [frameCompleteB, hret]
    · rw [if_neg hret]
      refine ⟨?_, hfr, hev⟩
      intro h1
      exact Or.inl h1

/-- The refill step preserves the same guarantees and additionally: a
no-data break leaves the serve cursors and end flag untouched with the
zero-byte source read as its last event, and a non-`io.EOF` source error is
propagated verbatim. -/
lemma readRefill_spec (z : Zstd σc σd) (so : Source ρ) (s : σd) (r : Reader σd)
    (src : ρ) (evs0 : List Event) (h0free : Event.freeDStream ∉ evs0)
    (h0ok : z.DWF → evs0.all cursorOk = true) :
    match readRefill z so s r src evs0 with
    | .ret _ _ err r1 _ evs => err ≠ some .eof ∧ err ≠ none ∧
        (r1.streamEnded = true → r.streamEnded = true ∨ evs.any (endedEvent z) = true) ∧
        Event.freeDStream ∉ evs ∧ (z.DWF → evs.all cursorOk = true)
    | .brk r1 _ evs => evs.getLast? = some (.sourceRead 0 none) ∧
        r1.streamEnded = r.streamEnded ∧ r1.endPos = r.endPos ∧ r1.pos = r.pos ∧
        r1.readBuf = r.readBuf ∧
        Event.freeDStream ∉ evs ∧ (z.DWF → evs.all cursorOk = true)
    | .cont r1 _ evs =>
        (r1.streamEnded = true → r.streamEnded = true ∨ evs.any frameCompleteB = true) ∧
        Event.freeDStream ∉ evs ∧ (z.DWF → evs.all cursorOk = true) := by
  rw [readRefill]
  by_cases hx : r.inBuffer.size ≤ r.inBuffer.pos
  · rw [if_pos hx]
    simp only
    rcases hrd : so.read src r.bufCap with ⟨⟨bs, serr⟩, src2⟩
    simp only
    have h1free : Event.freeDStream ∉ evs0 ++ [Event.sourceRead bs.length serr] := by
      rw [List.mem_append]
      rintro (h1 | h1)
      · exact h0free h1
      · simp at h1
    have h1ok : z.DWF → (evs0 ++ [Event.sourceRead bs.length serr]).all cursorOk = true := by
      intro hwf
      rw [List.all_append]
      simp [h0ok hwf, cursorOk]
    match serr with
    | some .eof =>
      have := readStep_spec z s
        (if 0 < bs.length then { r with inBuffer := ⟨bs, bs.length, 0⟩ }
          else { r with inBuffer := ⟨[], 0, 0⟩ })
        src2 (evs0 ++ [Event.sourceRead bs.length (some .eof)]) h1free h1ok
      revert this
      cases hso : readStep z s
          (if 0 < bs.length then { r with inBuffer := ⟨bs, bs.length, 0⟩ }
            else { r with inBuffer := ⟨[], 0, 0⟩ })
          src2 (evs0 ++ [Event.sourceRead bs.length (some .eof)]) with
      | ret n2 bs2 err2 r2 src3 evs2 =>
        intro hsp
        refine ⟨hsp.1, hsp.2.1, ?_, hsp.2.2.2.1, hsp.2.2.2.2⟩
        intro h1
        have := hsp.2.2.1 h1
        split at this <;> exact this
      | brk r2 src3 evs2 =>
        intro hsp
        exact hsp.elim
      | cont r2 src3 evs2 =>
        intro hsp
        refine ⟨?_, hsp.2.1, hsp.2.2⟩
        intro h1
        have := hsp.1 h1
        split at this <;> exact this
    | some (.createStream) =>
      exact ⟨by simp, by simp, fun h1 => by split at h1 <;> exact Or.inl h1, h1free, h1ok⟩
    | some (.codec c) =>
      exact ⟨by simp, by simp, fun h1 => by split at h1 <;> exact Or.inl h1, h1free, h1ok⟩
    | some (.ioErr t) =>
      exact ⟨by simp, by simp, fun h1 => by split at h1 <;> exact Or.inl h1, h1free, h1ok⟩
    | none =>
      by_cases hbs : bs.length = 0
      · rw [if_pos hbs]
        have hnot : ¬ (0 < bs.length) := by omega
        refine ⟨?_, by rw [if_neg hnot], by rw [if_neg hnot], by rw [if_neg hnot],
          by rw [if_neg hnot], h1free, h1ok⟩
        rw [List.getLast?_append]
        simp [hbs]
      · rw [if_neg hbs]
        have := readStep_spec z s
          (if 0 < bs.length then { r with inBuffer := ⟨bs, bs.length, 0⟩ }
            else { r with inBuffer := ⟨[], 0, 0⟩ })
          src2 (evs0 ++ [Event.sourceRead bs.length none]) h1free h1ok
        revert this
        cases hso : readStep z s
            (if 0 < bs.length then { r with inBuffer := ⟨bs, bs.length, 0⟩ }
              else { r with inBuffer := ⟨[], 0, 0⟩ })
            src2 (evs0 ++ [Event.sourceRead bs.length none]) with
        | ret n2 bs2 err2 r2 src3 evs2 =>
          intro hsp
          refine ⟨hsp.1, hsp.2.1, ?_, hsp.2.2.2.1, hsp.2.2.2.2⟩
          intro h1
          have := hsp.2.2.1 h1
          split at this <;> exact this
        | brk r2 src3 evs2 =>
          intro hsp
          exact hsp.elim
        | cont r2 src3 evs2 =>
          intro hsp
          refine ⟨?_, hsp.2.1, hsp.2.2⟩
          intro h1
          have := hsp.1 h1
          split at this <;> exact this
  · rw [if_neg hx]
    have hsp := readStep_spec z s r src evs0 h0free h0ok
    revert hsp
    cases hso : readStep z s r src evs0 with
    | ret n2 bs2 err2 r2 src3 evs2 => intro hsp; exact hsp
    | brk r2 src3 evs2 => intro hsp; exact hsp.elim
    | cont r2 src3 evs2 => intro hsp; exact hsp

/-- One body iteration of the refill loop, covering the lazy stream
creation. -/
lemma readBody_spec (z : Zstd σc σd) (so : Source ρ) (r : Reader σd) (src : ρ) :
    match readBody z so r src with
    | .ret _ _ err r1 _ evs => err ≠ some .eof ∧ err ≠ none ∧
        (r1.streamEnded = true → r.streamEnded = true ∨ evs.any (endedEvent z) = true) ∧
        Event.freeDStream ∉ evs ∧ (z.DWF → evs.all cursorOk = true)
    | .brk r1 _ evs => evs.getLast? = some (.sourceRead 0 none) ∧
        r1.streamEnded = r.streamEnded ∧ r1.endPos = r.endPos ∧ r1.pos = r.pos ∧
        r1.readBuf = r.readBuf ∧
        Event.freeDStream ∉ evs ∧ (z.DWF → evs.all cursorOk = true)
    | .cont r1 _ evs =>
        (r1.streamEnded = true → r.streamEnded = true ∨ evs.any frameCompleteB = true) ∧
        Event.freeDStream ∉ evs ∧ (z.DWF → evs.all cursorOk = true) := by
  rw [readBody]
  rcases hst : r.stream with _ | s
  · rcases hcd : z.createDStream with _ | s
    · simp only
      refine ⟨by simp, by simp, fun h1 => Or.inl h1, by simp, by intro _; simp [cursorOk]⟩
    · simp only
      have hsp := readRefill_spec z so s
        { r with stream := some s,
                 readBufCap := if r.readBufCap = 0 then defaultReadBufferSize else r.readBufCap }
        src [Event.createDStream true] (by simp) (by intro _; simp [cursorOk])
      revert hsp
      cases hso : readRefill z so s
          { r with stream := some s,
                   readBufCap := if r.readBufCap = 0 then defaultReadBufferSize else r.readBufCap }
          src [Event.createDStream true] with
      | ret a b c d e f => intro hsp; exact hsp
      | brk a b c => intro hsp; exact hsp
      | cont a b c => intro hsp; exact hsp
  · simp only
    have hsp := readRefill_spec z so s r src [] (by simp) (by intro _; simp)
    revert hsp
    cases hso : readRefill z so s r src [] with
    | ret a b c d e f => intro hsp; exact hsp
    | brk a b c => intro hsp; exact hsp
    | cont a b c => intro hsp; exact hsp

/-- The refill loop of `Reader.Read` for an arbitrary engine and source:
it never returns `io.EOF` through the early-return path, the end flag is
set only at frame completion or on a codec fault, a `(0, nil)` fall-through
ends with the zero-byte source read, no iteration frees the session, and a
cursor-respecting engine keeps every step within bounds. -/
lemma readLoop_spec (z : Zstd σc σd) (so : Source ρ) : ∀ (fuel : Nat) (r : Reader σd)
    (src : ρ) (exit : RLoopExit σd ρ), readLoop z so fuel r src = some exit →
    match exit with
    | .ret _ _ err r2 _ evs => err ≠ some .eof ∧ err ≠ none ∧
        (r2.streamEnded = true → r.streamEnded = true ∨ evs.any (endedEvent z) = true) ∧
        Event.freeDStream ∉ evs ∧ (z.DWF → evs.all cursorOk = true)
    | .fall r2 _ evs =>
        (r2.streamEnded = true → r.streamEnded = true ∨ evs.any frameCompleteB = true) ∧
        (r2.endPos = 0 → r2.streamEnded = false →
          evs.getLast? = some (.sourceRead 0 none) ∨
            (r2 = r ∧ evs = [] ∧ ¬(r.endPos = 0 ∧ r.streamEnded = false))) ∧
        Event.freeDStream ∉ evs ∧ (z.DWF → evs.all cursorOk = true) := by
  intro fuel
  induction fuel with
  | zero => intro r src exit h; cases h
  | succ n ih =>
    intro r src exit h
    rw [readLoop] at h
    by_cases hcond : r.endPos = 0 ∧ r.streamEnded = false
    · rw [if_pos hcond] at h
      have hbody := readBody_spec z so r src
      revert hbody
      cases hbd : readBody z so r src with
      | ret n2 bs2 err2 r1 src1 evs1 =>
        intro hbody
        rw [hbd] at h
        obtain rfl := Option.some.inj h
        exact hbody
      | brk r1 src1 evs1 =>
        intro hbody
        rw [hbd] at h
        obtain rfl := Option.some.inj h
        obtain ⟨hlast, hse, hep, _, _, hfree, hok⟩ := hbody
        refine ⟨fun h1 => Or.inl (hse ▸ h1), fun _ _ => Or.inl hlast, hfree, hok⟩
      | cont r1 src1 evs1 =>
        intro hbody
        rw [hbd] at h
        obtain ⟨exit2, hexit2, rfl⟩ := Option.map_eq_some'.mp h
        have hih := ih r1 src1 exit2 hexit2
        obtain ⟨htrans1, hfree1, hok1⟩ := hbody
        revert hih
        cases exit2 with
        | ret n2 bs2 err2 r2 src2 evs2 =>
          intro hih
          obtain ⟨herr2, herrN2, htrans2, hfree2, hok2⟩ := hih
          refine ⟨herr2, herrN2, ?_, ?_, ?_⟩
          · intro h1
            rcases htrans2 h1 with h2 | h2
            · rcases htrans1 h2 with h3 | h3
              · exact Or.inl h3
              · right
                simp only [RLoopExit.prepend, List.any_append]
                simp [any_endedEvent_of_frame z evs1 h3]
            · right
              simp only [RLoopExit.prepend, List.any_append]
              simp [h2]
          · simp only [RLoopExit.prepend, List.mem_append]
            rintro (h1 | h1)
            · exact hfree1 h1
            · exact hfree2 h1
          · intro hwf
            simp only [RLoopExit.prepend, List.all_append]
            simp [hok1 hwf, hok2 hwf]
        | fall r2 src2 evs2 =>
          intro hih
          obtain ⟨htrans2, hlast2, hfree2, hok2⟩ := hih
          refine ⟨?_, ?_, ?_, ?_⟩
          · intro h1
            rcases htrans2 h1 with h2 | h2
            · rcases htrans1 h2 with h3 | h3
              · exact Or.inl h3
              · right
                simp only [RLoopExit.prepend, List.any_append]
                simp [h3]
            · right
              simp only [RLoopExit.prepend, List.any_append]
              simp [h2]
          · intro hz hs
            rcases hlast2 hz hs with h2 | ⟨rfl, rfl, hnc⟩
            · left
              have hne : evs2 ≠ [] := by
                intro hnil
                rw [hnil] at h2
                cases h2
              rw [List.getLast?_append_of_ne_nil _ hne]
              exact h2
            · exact absurd ⟨hz, hs⟩ hnc
          · simp only [RLoopExit.prepend, List.mem_append]
            rintro (h1 | h1)
            · exact hfree1 h1
            · exact hfree2 h1
          · intro hwf
            simp only [RLoopExit.prepend, List.all_append]
            simp [hok1 hwf, hok2 hwf]
    · rw [if_neg hcond] at h
      obtain rfl := Option.some.inj h
      exact ⟨fun h1 => Or.inl h1, fun hz hs => Or.inr ⟨rfl, rfl, hcond⟩, by simp,
        by intro _; simp⟩

/-- The recorded events of one loop-body outcome. -/
def BodyOut.events : BodyOut σd ρ → List Event
  | .ret _ _ _ _ _ evs => evs
  | .brk _ _ evs => evs
  | .cont _ _ evs => evs

lemma readStep_events_prefix (z : Zstd σc σd) (s : σd) (r : Reader σd) (src : ρ)
    (evs0 : List Event) : ∃ t, (readStep z s r src evs0).events = evs0 ++ t := by
  rw [readStep]
  simp only
  by_cases herr : z.isError (z.decompressStream s r.readBufCap r.inBuffer.remaining).ret = true
  · rw [if_pos herr]
    exact ⟨_, rfl⟩
  · rw [if_neg herr]
    by_cases hret : (z.decompressStream s r.readBufCap r.inBuffer.remaining).ret = 0
    · rw [if_pos hret]
      exact ⟨_, rfl⟩
    · rw [if_neg hret]
      exact ⟨_, rfl⟩

lemma readRefill_events_prefix (z : Zstd σc σd) (so : Source ρ) (s : σd)
    (r : Reader σd) (src : ρ) (evs0 : List Event) :
    ∃ t, (readRefill z so s r src evs0).events = evs0 ++ t := by
  rw [readRefill]
  by_cases hx : r.inBuffer.size ≤ r.inBuffer.pos
  · rw [if_pos hx]
    simp only
    rcases hrd : so.read src r.bufCap with ⟨⟨bs, serr⟩, src2⟩
    simp only
    match serr with
    | some .eof =>
      obtain ⟨t, ht⟩ := readStep_events_prefix z s
        (if 0 < bs.length then { r with inBuffer := ⟨bs, bs.length, 0⟩ }
          else { r with inBuffer := ⟨[], 0, 0⟩ }) src2
        (evs0 ++ [Event.sourceRead bs.length (some .eof)])
      exact ⟨_, by rw [ht, List.append_assoc]⟩
    | some (.createStream) => exact ⟨_, rfl⟩
    | some (.codec c) => exact ⟨_, rfl⟩
    | some (.ioErr t) => exact ⟨_, rfl⟩
    | none =>
      by_cases hbs : bs.length = 0
      · rw [if_pos hbs]
        exact ⟨_, rfl⟩
      · rw [if_neg hbs]
        obtain ⟨t, ht⟩ := readStep_events_prefix z s
          (if 0 < bs.length then { r with inBuffer := ⟨bs, bs.length, 0⟩ }
            else { r with inBuffer := ⟨[], 0, 0⟩ }) src2
          (evs0 ++ [Event.sourceRead bs.length none])
        exact ⟨_, by rw [ht, List.append_assoc]⟩
  · rw [if_neg hx]
    exact readStep_events_prefix z s r src evs0

/-- When the stream handle is nil, the first recorded event of a loop body
is the `createDStream` call. -/
lemma readBody_head_create (z : Zstd σc σd) (so : Source ρ) (r : Reader σd) (src : ρ)
    (hst : r.stream = none) :
    ∃ b t, (readBody z so r src).events = Event.createDStream b :: t := by
  rw [readBody, hst]
  rcases hcd : z.createDStream with _ | s
  · exact ⟨false, _, rfl⟩
  · simp only
    obtain ⟨t, ht⟩ := readRefill_events_prefix z so s
      { r with stream := some s,
               readBufCap := if r.readBufCap = 0 then defaultReadBufferSize else r.readBufCap }
      src [Event.createDStream true]
    exact ⟨true, t, by rw [ht]; rfl⟩

/-- What a completed `Reader.Read` guarantees for an arbitrary engine and
source: a `(0, nil)` result reflects a zero-byte non-error source read,
`io.EOF` is only reported with the ended flag already set or frame
completion signalled in this call, the ended flag itself is set only by
frame completion or a codec fault, the session is never freed here, the
cursor discipline holds for well-formed engines, and a nil stream handle
is re-created rather than dereferenced. -/
lemma Read_spec (z : Zstd σc σd) (so : Source ρ) (r : Reader σd) (src : ρ)
    (pcap fuel : Nat) (res : ReadResult σd ρ)
    (h : Reader.Read z so r src pcap fuel = some res) :
    (1 ≤ pcap → res.n = 0 → res.err = none →
      res.events.getLast? = some (.sourceRead 0 none)) ∧
    (res.err = some .eof → r.streamEnded = true ∨ res.events.any frameCompleteB = true) ∧
    (res.r.streamEnded = true → r.streamEnded = true ∨
      res.events.any (endedEvent z) = true) ∧
    Event.freeDStream ∉ res.events ∧
    (z.DWF → res.events.all cursorOk = true) ∧
    (r.stream = none → r.endPos ≤ r.pos → r.streamEnded = false → 1 ≤ fuel →
      ∃ b t, res.events = Event.createDStream b :: t) := by
  rw [Reader.Read] at h
  by_cases hserve : r.pos < r.endPos
  · rw [if_pos hserve] at h
    obtain rfl := Option.some.inj h
    refine ⟨?_, by simp, fun h1 => Or.inl h1, by simp, by intro _; simp, ?_⟩
    · intro hp hn _
      simp only at hn
      omega
    · intro _ hle _ _
      omega
  · rw [if_neg hserve] at h
    by_cases hended : r.streamEnded = true
    · rw [if_pos hended] at h
      obtain rfl := Option.some.inj h
      exact ⟨by simp, fun _ => Or.inl hended, fun _ => Or.inl hended, by simp,
        by intro _; simp, fun _ _ hf _ => absurd hended (by simp [hf])⟩
    · rw [if_neg hended] at h
      simp only at h
      rcases hl : readLoop z so fuel { r with pos := 0, endPos := 0, readBuf := [] } src
        with _ | exit
      · rw [hl] at h
        cases h
      · rw [hl] at h
        have hspec := readLoop_spec z so fuel
          { r with pos := 0, endPos := 0, readBuf := [] } src exit hl
        have hfirst : r.stream = none → 1 ≤ fuel →
            ∃ b t, (match exit with
              | .ret _ _ _ _ _ evs => evs
              | .fall _ _ evs => evs) = Event.createDStream b :: t := by
          intro hstN hfuel
          obtain ⟨m, rfl⟩ : ∃ m, fuel = m + 1 := ⟨fuel - 1, by omega⟩
          rw [readLoop, if_pos ⟨rfl, by simpa using hended⟩] at hl
          obtain ⟨b, t, hbt⟩ := readBody_head_create z so
            { r with pos := 0, endPos := 0, readBuf := [] } src (by simpa using hstN)
          revert hl
          cases hbd : readBody z so { r with pos := 0, endPos := 0, readBuf := [] } src with
          | ret n2 bs2 err2 r2 src2 evs2 =>
            intro hl
            obtain rfl := Option.some.inj hl
            rw [hbd] at hbt
            exact ⟨b, t, hbt⟩
          | brk r2 src2 evs2 =>
            intro hl
            obtain rfl := Option.some.inj hl
            rw [hbd] at hbt
            exact ⟨b, t, hbt⟩
          | cont r2 src2 evs2 =>
            intro hl
            obtain ⟨exit2, hexit2, rfl⟩ := Option.map_eq_some'.mp hl
            rw [hbd] at hbt
            simp only [BodyOut.events] at hbt
            cases exit2 with
            | ret a1 a2 a3 a4 a5 a6 =>
              exact ⟨b, t ++ a6, by simp [RLoopExit.prepend, hbt]⟩
            | fall a1 a2 a3 =>
              exact ⟨b, t ++ a3, by simp [RLoopExit.prepend, hbt]⟩
        revert hspec hfirst
        cases exit with
        | ret n2 bs2 err2 r2 src2 evs2 =>
          intro hspec hfirst
          obtain ⟨herrE, herrN, htrans, hfree, hok⟩ := hspec
          obtain rfl := Option.some.inj h
          refine ⟨?_, ?_, ?_, hfree, hok, ?_⟩
          · intro _ _ hnone
            exact absurd hnone herrN
          · intro heof
            exact absurd heof herrE
          · intro h1
            rcases htrans h1 with h2 | h2
            · exact Or.inl (by simpa using h2)
            · exact Or.inr h2
          · intro hstN _ hse hfuel
            exact hfirst hstN hfuel
        | fall r2 src2 evs2 =>
          intro hspec hfirst
          simp only at h
          obtain ⟨htrans, hlast, hfree, hok⟩ := hspec
          by_cases hz : r2.endPos = 0
          · rw [if_pos hz] at h
            by_cases hse2 : r2.streamEnded = true
            · rw [if_pos hse2] at h
              obtain rfl := Option.some.inj h
              refine ⟨by simp, ?_, ?_, hfree, hok, ?_⟩
              · intro _
                rcases htrans hse2 with h2 | h2
                · exact Or.inl (by simpa using h2)
                · exact Or.inr h2
              · intro h1
                rcases htrans h1 with h2 | h2
                · exact Or.inl (by simpa using h2)
                · exact Or.inr (any_endedEvent_of_frame z _ h2)
              · intro hstN _ hse hfuel
                exact hfirst hstN hfuel
            · rw [if_neg hse2] at h
              obtain rfl := Option.some.inj h
              refine ⟨?_, by simp, ?_, hfree, hok, ?_⟩
              · intro _ _ _
                rcases hlast hz (by simpa using hse2) with h2 | ⟨_, _, hnc⟩
                · exact h2
                · exact absurd ⟨rfl, by simpa using hended⟩ hnc
              · intro h1
                rcases htrans h1 with h2 | h2
                · exact Or.inl (by simpa using h2)
                · exact Or.inr (any_endedEvent_of_frame z _ h2)
              · intro hstN _ hse hfuel
                exact hfirst hstN hfuel
          · rw [if_neg hz] at h
            obtain rfl := Option.some.inj h
            refine ⟨?_, by simp, ?_, hfree, hok, ?_⟩
            · intro hp hn _
              simp only at hn
              omega
            · intro h1
              simp only at h1
              rcases htrans h1 with h2 | h2
              · exact Or.inl (by simpa using h2)
              · exact Or.inr (any_endedEvent_of_frame z _ h2)
            · intro hstN _ hse hfuel
              exact hfirst hstN hfuel

/-- What a completed `Writer.Write` guarantees for an arbitrary engine and
sink: success returns `len(p)`, an error returns exactly the engine's
consumed count, the session is never freed here, and the recorded steps
respect the cursor discipline for well-formed engines. -/
lemma Write_spec (z : Zstd σc σd) (sk : Sink τ) (w : Writer σc) (sink : τ)
    (p : List Nat) (fuel : Nat) (res : WriteResult σc τ)
    (h : Writer.Write z sk w sink p fuel = some res) :
    (res.err = none → res.n = p.length) ∧
    (res.err ≠ none → res.n = eventsConsumed res.events) ∧
    Event.freeCStream ∉ res.events ∧
    (z.CWF → res.events.all cursorOk = true) ∧
    (w.stream = none → p ≠ [] → ∃ b t, res.events = Event.createCStream b :: t) := by
  rw [Writer.Write] at h
  by_cases hp : p.length = 0
  · rw [if_pos hp] at h
    obtain rfl := Option.some.inj h
    refine ⟨fun _ => by simpa using hp.symm, by simp [eventsConsumed], by simp,
      by intro _; simp, ?_⟩
    intro _ hne
    exact absurd (List.length_eq_zero.mp hp) hne
  · rw [if_neg hp] at h
    rcases hws : w.stream with _ | s
    · rw [hws] at h
      simp only at h
      rcases hcs : z.createCStream with _ | s0
      · rw [hcs] at h
        obtain rfl := Option.some.inj h
        exact ⟨by simp, by intro _; simp [eventsConsumed], by simp, by intro _; simp [cursorOk],
          fun _ _ => ⟨false, [], rfl⟩⟩
      · rw [hcs] at h
        simp only at h
        obtain ⟨o, ho, rfl⟩ := Option.map_eq_some'.mp h
        obtain ⟨hpos, hsize, hcap, hsucc, hfree, hok⟩ :=
          writeLoop_spec z sk fuel s0 _ sink o ho
        refine ⟨?_, ?_, ?_, ?_, fun _ _ => ⟨true, o.events, rfl⟩⟩
        · intro herr
          simp only at herr ⊢
          rw [if_pos herr]
        · intro herr
          have hne : ¬ (o.err = none) := herr
          simp only [hne, if_neg, reduceIte]
          simp only at hpos
          rw [hpos]
          simp [eventsConsumed]
        · simp only [List.mem_cons]
          rintro (h1 | h1)
          · cases h1
          · exact hfree h1
        · intro hwf
          simp [cursorOk, hok hwf]
    · rw [hws] at h
      simp only at h
      obtain ⟨o, ho, rfl⟩ := Option.map_eq_some'.mp h
      obtain ⟨hpos, hsize, hcap, hsucc, hfree, hok⟩ :=
        writeLoop_spec z sk fuel s _ sink o ho
      refine ⟨?_, ?_, hfree, hok, ?_⟩
      · intro herr
        simp only at herr ⊢
        rw [if_pos herr]
      · intro herr
        have hne : ¬ (o.err = none) := herr
        simp only [hne, if_neg, reduceIte]
        simp only at hpos
        rw [hpos]
        simp
      · intro hst
        simp at hst

/-- What a completed `Writer.Flush` guarantees: a nil stream returns
success at once with no native calls; the session is never freed; recorded
steps respect the cursor discipline. -/
lemma Flush_spec (z : Zstd σc σd) (sk : Sink τ) (w : Writer σc) (sink : τ)
    (fuel : Nat) (res : FlushResult σc τ)
    (h : Writer.Flush z sk w sink fuel = some res) :
    Event.freeCStream ∉ res.events ∧
    (z.CWF → res.events.all cursorOk = true) ∧
    (w.stream = none → res.err = none ∧ res.events = [] ∧ res.w = w ∧ res.sink = sink) := by
  rw [Writer.Flush] at h
  rcases hws : w.stream with _ | s
  · rw [hws] at h
    obtain rfl := Option.some.inj h
    exact ⟨by simp, by intro _; simp, fun _ => ⟨rfl, rfl, rfl, rfl⟩⟩
  · rw [hws] at h
    simp only at h
    obtain ⟨o, ho, rfl⟩ := Option.map_eq_some'.mp h
    obtain ⟨hfree, hok⟩ := termLoop_spec z sk EndFlush fuel s _ sink o ho
    refine ⟨hfree, hok, ?_⟩
    intro hst
    simp at hst

/-- What a completed `Writer.Close` guarantees: the stream handle is freed
exactly once when it was alive and never when it was nil, the handle and
the context are nil afterwards, a nil-stream close returns success with
only the deferred context release, and recorded steps respect the cursor
discipline. -/
lemma Close_spec (z : Zstd σc σd) (sk : Sink τ) (w : Writer σc) (sink : τ)
    (fuel : Nat) (res : FlushResult σc τ)
    (h : Writer.Close z sk w sink fuel = some res) :
    res.w.stream = none ∧ res.w.ctx = false ∧
    res.events.count Event.freeCStream =
      (match w.stream with | none => 0 | some _ => 1) ∧
    (z.CWF → res.events.all cursorOk = true) ∧
    (w.stream = none → res.err = none ∧
      res.events = (if w.ctx then [Event.freeCCtx] else [])) := by
  rw [Writer.Close] at h
  rcases hws : w.stream with _ | s
  · rw [hws] at h
    simp only at h
    obtain rfl := Option.some.inj h
    refine ⟨rfl, rfl, ?_, ?_, fun _ => ⟨rfl, rfl⟩⟩
    · match hctx : w.ctx with
      | true => simp [hctx]
      | false => simp [hctx]
    · intro _
      match hctx : w.ctx with
      | true => simp [hctx, cursorOk]
      | false => simp [hctx]
  · rw [hws] at h
    simp only at h
    obtain ⟨o, ho, rfl⟩ := Option.map_eq_some'.mp h
    obtain ⟨hfree, hok⟩ := termLoop_spec z sk EndEnd fuel s _ sink o ho
    refine ⟨rfl, rfl, ?_, ?_, ?_⟩
    · simp only [List.count_append]
      rw [List.count_eq_zero.mpr hfree]
      match hctx : w.ctx with
      | true => simp
      | false => simp
    · intro hwf
      simp only [List.all_append, hok hwf]
      match hctx : w.ctx with
      | true => simp [cursorOk]
      | false => simp [cursorOk]
    · intro hst
      simp at hst

/-! ## Helper facts for the claim theorems -/

/-- A fresh `NewReader` over the encoding of `b` followed by the frame
terminator satisfies the decode invariant with `b` still owed. -/
lemma RInv_init {b enc : List Nat} (hc : Chunked b enc) :
    RInv (NewReader DState) (enc ++ [0]) b := by
  refine ⟨le_refl _, rfl, le_refl _, rfl, by norm_num [NewReader, defaultReadBufferSize],
    ?_, ⟨b, by simp [NewReader], ?_, ?_⟩⟩
  · intro h
    exact absurd rfl h
  · intro h
    simp [NewReader] at h
  · intro _
    have := Chunked.ddec hc [0] [] (DDec.term [])
    simpa [NewReader, ZstdInBuffer.remaining] using this

/-- `Tr` of a fresh reader over a buffer is the buffer's length. -/
lemma Tr_init (srem : List Nat) : Tr (NewReader DState) srem = srem.length := by
  simp [Tr, NewReader, ZstdInBuffer.remaining]

/-- Streaming decompression of a model frame via `io.ReadAll` recovers the
payload, with fuels sized from the payload length. -/
lemma decompressViaReader_model {b enc : List Nat} (hc : Chunked b enc) :
    decompressViaReader modelZstd (enc ++ [0]) (b.length + 2) (2 * b.length + 3)
      (b.length + 1) = some b := by
  have hlen := Chunked.length_le hc
  have hfi : Tr (NewReader DState) (enc ++ [0]) + 2 ≤ 2 * b.length + 3 := by
    rw [Tr_init]
    simp only [List.length_append, List.length_cons, List.length_nil]
    omega
  obtain ⟨r2, srem2, h⟩ := readAll_model b.length b (le_refl _) (NewReader DState)
    (enc ++ [0]) (b.length + 2) (2 * b.length + 3) (b.length + 1) []
    (RInv_init hc) (by omega) hfi (by omega)
  rw [decompressViaReader, h]
  simp

/-- The model engine respects the cursor contract on compression steps. -/
lemma modelZstd_CWF : modelZstd.CWF := by
  intro s outCap input mode
  show (modelCStep s outCap input mode).consumed ≤ input.length ∧
    (modelCStep s outCap input mode).produced.length ≤ outCap
  rcases input with _ | ⟨x, t⟩
  · by_cases h1 : mode = EndEnd
    · subst h1
      by_cases h3 : 1 ≤ outCap
      · simp [modelCStep, h3]
      · simp [modelCStep, h3]
    · by_cases h2 : mode = EndFlush
      · subst h2
        simp [modelCStep, EndFlush, EndEnd]
      · simp [modelCStep, h1, h2]
  · simp only [modelCStep]
    rw [if_neg (by simp), if_neg (by simp)]
    split
    · exact ⟨Nat.zero_le _, Nat.zero_le _⟩
    · next h3 =>
      simp only [List.length_cons, List.length_take] at h3 ⊢
      constructor
      · omega
      · omega

/-- The model engine respects the cursor contract on decompression
steps. -/
lemma modelZstd_DWF : modelZstd.DWF := by
  intro s outCap input
  show (modelDStep s outCap input).consumed ≤ input.length ∧
    (modelDStep s outCap input).produced.length ≤ outCap
  match s, input with
  | .done, _ => exact ⟨by simp [modelDStep], by simp [modelDStep]⟩
  | .header, [] => exact ⟨by simp [modelDStep], by simp [modelDStep]⟩
  | .header, h :: t =>
    by_cases hz : h = 0
    · exact ⟨by simp [modelDStep, hz], by simp [modelDStep, hz]⟩
    · exact ⟨by simp [modelDStep, hz], by simp [modelDStep, hz]⟩
  | .payload k, input =>
    rw [modelDStep]
    by_cases hm : min k (min input.length outCap) = 0
    · rw [if_pos hm]
      exact ⟨Nat.zero_le _, by simp⟩
    · rw [if_neg hm]
      have h1 : min k (min input.length outCap) ≤ input.length :=
        le_trans (min_le_right _ _) (min_le_left _ _)
      have h2 : min k (min input.length outCap) ≤ outCap :=
        le_trans (min_le_right _ _) (min_le_right _ _)
      refine ⟨h1, ?_⟩
      simp only [List.length_take]
      omega

/-! ## The claims -/

/-- C10: For an empty input slice, one-shot `Compress` and `Decompress`
return an empty non-nil slice and a nil error without invoking any native
engine function — for every engine, compression level and size limit. -/
theorem C10_oneshot_empty (z : Zstd σc σd) (level maxSize : Int) :
    Zstd.Compress z [] level = ⟨some [], none, []⟩ ∧
    Zstd.Decompress z [] maxSize = ⟨some [], none, []⟩ :=
  ⟨rfl, rfl⟩

/-- C4: Against an engine whose decompression step indefinitely returns the
non-terminal hint 1 with zero input consumed and zero output produced,
`Reader.Read` never returns at all — it spins in the refill loop for every
fuel bound instead of raising a progress-stall fault within a bounded
number of iterations.  The required stall safeguard is absent from the
code: this is the divergence witness for the code bug. -/
theorem C4_stall_diverges :
    ∀ fuel pcap, Reader.Read stallZstd listSource (NewReader Unit) [] pcap fuel = none :=
  fun fuel pcap => read_stall pcap fuel

/-- C1 (amended): with the spec-modelled engine, one-shot
`Decompress ∘ Compress` is the identity on every payload, and the streaming
Writer-to-Reader pipeline round-trips every non-empty payload; the empty
payload round-trips one-shot but not through the streaming pair. -/
theorem C1_round_trip (b : List Nat) (level : Int)
    (h1 : 1 ≤ level) (h2 : level ≤ 22) (h3 : b.length < modelErrCode) :
    osRoundTrip modelZstd b level = some b ∧
    (b ≠ [] → ∃ enc, Chunked b enc ∧
      compressViaWriter modelZstd level b (b.length + 1) 1 = some (enc ++ [0]) ∧
      decompressViaReader modelZstd (enc ++ [0]) (b.length + 2) (2 * b.length + 3)
        (b.length + 1) = some b) := by
  constructor
  · rcases hb : b with _ | ⟨x, t⟩
    · rfl
    · rw [← hb]
      have hbl : ¬ (b.length = 0) := by rw [hb]; simp
      have hnec : ¬ (b.length = modelErrCode) := by omega
      have hne : modelZstd.isError b.length = false := by simp [modelZstd, hnec]
      have hcomp : Zstd.Compress modelZstd b level =
          ⟨some b, none, [.compressBoundCall, .oneShotCompress]⟩ := by
        rw [Zstd.Compress, if_neg hbl]
        have hcall : modelZstd.compress (modelZstd.compressBound b.length) b level =
            (b.length, b) := by
          show (if 1 ≤ level ∧ level ≤ 22 ∧ b.length ≤ b.length + 8
            then ((b.length : Nat), b) else (modelErrCode, [])) = (b.length, b)
          rw [if_pos ⟨h1, h2, by omega⟩]
        simp only [hcall, hne, Bool.false_eq_true, if_false]
      have hdec : Zstd.Decompress modelZstd b 0 =
          ⟨some b, none, [.oneShotDecompress]⟩ := by
        rw [Zstd.Decompress, if_neg hbl]
        have hmle : b.length ≤ max (b.length * 5) 1024 := by
          have : b.length ≤ b.length * 5 := by omega
          omega
        have hcall : modelZstd.decompress
            (if (0 : Int) ≤ 0 then max (b.length * 5) 1024 else (0 : Int).toNat) b =
            (b.length, b) := by
          show (if b.length ≤ (if (0 : Int) ≤ 0 then max (b.length * 5) 1024
            else (0 : Int).toNat) then ((b.length : Nat), b) else (modelErrCode, [])) = _
          rw [if_pos (by simpa using hmle)]
        simp only at hcall
        simp only [hcall, hne, Bool.false_eq_true, if_false]
      rw [osRoundTrip, hcomp]
      simp only
      rw [hdec]
  · intro hb
    obtain ⟨enc, w1, evs, hW, hchunk, hstr, hcap, _, _⟩ :=
      write_model (NewWriter Unit level) [] b (b.length + 1)
        (by norm_num [NewWriter, defaultWriteBufferSize]) hb (by omega)
    obtain ⟨c, hC, hcerr, hcsink, _, _⟩ :=
      close_model w1 ([] ++ enc) 1
        (by rw [hcap]; norm_num [NewWriter, defaultWriteBufferSize]) hstr (le_refl 1)
    refine ⟨enc, hchunk, ?_, decompressViaReader_model hchunk⟩
    rw [compressViaWriter, hW]
    simp only
    rw [hC]
    simp only [hcerr, hcsink]
    simp

/-- C1 counterexample: for the empty payload the streaming pipeline emits an
empty compressed stream (the empty `Write` is a no-op, so `Close` finds no
stream to terminate), and the streaming Reader never returns on that empty
stream, whatever the fuel — the streaming round trip fails for `b = []`. -/
theorem C1_empty_streaming_fails :
    compressViaWriter modelZstd 3 [] 1 1 = some [] ∧
    ∀ fo fi pcap, decompressViaReader modelZstd [] fo fi pcap = none := by
  constructor
  · rfl
  · intro fo fi pcap
    have h : readAll modelZstd listSource fo fi (NewReader DState) [] pcap [] = none := by
      cases fo with
      | zero => rfl
      | succ n =>
        rw [readAll, read_model_empty pcap fi]
    rw [decompressViaReader, h]

/-- C1 witness: the two-byte payload `[7, 7]` round-trips both one-shot and
through the streaming pipeline. -/
theorem C1_round_trip_witness :
    osRoundTrip modelZstd [7, 7] 3 = some [7, 7] ∧
    ([7, 7] ≠ [] → ∃ enc, Chunked [7, 7] enc ∧
      compressViaWriter modelZstd 3 [7, 7] ([7, 7].length + 1) 1 = some (enc ++ [0]) ∧
      decompressViaReader modelZstd (enc ++ [0]) ([7, 7].length + 2)
        (2 * [7, 7].length + 3) ([7, 7].length + 1) = some [7, 7]) :=
  C1_round_trip [7, 7] 3 (by decide) (by decide) (by decide)

/-- C2 (amended): `Close` nils the handles instead of latching a closed
state: after `Writer.Close` the stream and context are nil, a subsequent
`Flush` succeeds touching nothing, and a subsequent `Write` that reaches
the engine first creates a fresh stream; after `Reader.Close` the stream is
nil and a subsequent `Read` that reaches the engine first creates a fresh
stream.  No freed session is ever touched, but no "stream closed" error is
ever produced. -/
theorem C2_after_close (z : Zstd σc σd) (sk : Sink τ) (so : Source ρ) :
    (∀ (w : Writer σc) (sink : τ) (fuel : Nat) (res : FlushResult σc τ),
      Writer.Close z sk w sink fuel = some res →
      res.w.stream = none ∧ res.w.ctx = false ∧
      (∀ (sink2 : τ) (f2 : Nat),
        Writer.Flush z sk res.w sink2 f2 = some ⟨none, res.w, sink2, []⟩) ∧
      (∀ (sink2 : τ) (p : List Nat) (f2 : Nat) (res2 : WriteResult σc τ),
        Writer.Write z sk res.w sink2 p f2 = some res2 → p ≠ [] →
        ∃ b t, res2.events = Event.createCStream b :: t)) ∧
    (∀ r : Reader σd,
      ((Reader.Close r).2.1).stream = none ∧
      (∀ (src : ρ) (pcap f : Nat) (res2 : ReadResult σd ρ),
        ((Reader.Close r).2.1).endPos ≤ ((Reader.Close r).2.1).pos →
        ((Reader.Close r).2.1).streamEnded = false → 1 ≤ f →
        Reader.Read z so ((Reader.Close r).2.1) src pcap f = some res2 →
        ∃ b t, res2.events = Event.createDStream b :: t)) := by
  constructor
  · intro w sink fuel res h
    obtain ⟨hs, hc, _, _, _⟩ := Close_spec z sk w sink fuel res h
    refine ⟨hs, hc, ?_, ?_⟩
    · intro sink2 f2
      rw [Writer.Flush]
      split
      · rfl
      · next s heq =>
        rw [hs] at heq
        exact Option.noConfusion heq
    · intro sink2 p f2 res2 h2 hp
      exact (Write_spec z sk res.w sink2 p f2 res2 h2).2.2.2.2 hs hp
  · intro r
    refine ⟨rfl, ?_⟩
    intro src pcap f res2 hle hse hf h2
    exact (Read_spec z so _ src pcap f res2 h2).2.2.2.2.2 rfl hle hse hf

/-- C2 counterexample: a `Write` issued after `Close` does not fail with a
"stream closed" error — it succeeds (nil error, full count), lazily
creating a fresh stream. -/
theorem C2_write_after_close_succeeds :
    ∃ (c : FlushResult Unit (List Nat)) (res : WriteResult Unit (List Nat)),
      Writer.Close modelZstd bufferSink (NewWriter Unit 3) [] 1 = some c ∧
      Writer.Write modelZstd bufferSink c.w c.sink [5] 2 = some res ∧
      res.err = none ∧ res.n = 1 :=
  ⟨_, _, rfl, rfl, rfl, rfl⟩

/-- C2 witness: a fresh Writer closed once has nil handles; flushing it
afterwards succeeds without native calls, and the closed Reader's handle is
nil. -/
theorem C2_after_close_witness :
    ∃ res : FlushResult Unit (List Nat),
      Writer.Close modelZstd bufferSink (NewWriter Unit 3) [] 1 = some res ∧
      res.w.stream = none ∧ res.w.ctx = false ∧
      Writer.Flush modelZstd bufferSink res.w [] 1 = some ⟨none, res.w, [], []⟩ ∧
      ((Reader.Close (NewReader DState)).2.1).stream = none := by
  obtain ⟨h1, h2, h3, _⟩ :=
    (C2_after_close modelZstd bufferSink listSource).1 (NewWriter Unit 3) [] 1 _ rfl
  exact ⟨_, rfl, h1, h2, h3 [] 1,
    ((C2_after_close modelZstd bufferSink listSource).2 (NewReader DState)).1⟩

/-- C3 (amended): a completed `Write` returns `len(p)` on success; on error
it returns the total input the *engine* consumed across the recorded steps
(`w.inBuffer.Pos`), which counts bytes handed to the engine, not bytes
durably forwarded to the sink. -/
theorem C3_write_count (z : Zstd σc σd) (sk : Sink τ) (w : Writer σc) (sink : τ)
    (p : List Nat) (fuel : Nat) (res : WriteResult σc τ)
    (h : Writer.Write z sk w sink p fuel = some res) :
    (res.err = none → res.n = p.length) ∧
    (res.err ≠ none → res.n = eventsConsumed res.events) :=
  ⟨(Write_spec z sk w sink p fuel res h).1, (Write_spec z sk w sink p fuel res h).2.1⟩

/-- C3 counterexample: a greedy engine consumes the whole input in one step
before the sink rejects the produced bytes; `Write` reports count 1 =
`len(p)` with the error even though the sink durably accepted nothing, so
the error-path count reflects engine consumption, not durably forwarded
bytes. -/
theorem C3_error_count_not_durable :
    ∃ res : WriteResult Unit (List Nat),
      Writer.Write greedyZstd failSink (NewWriter Unit 3) [] [5] 2 = some res ∧
      res.err ≠ none ∧ res.n = 1 ∧ res.sink = [] :=
  ⟨_, rfl, by decide, rfl, rfl⟩

/-- C3 witness: a successful model `Write` of one byte returns count 1. -/
theorem C3_write_count_witness :
    ∃ res : WriteResult Unit (List Nat),
      Writer.Write modelZstd bufferSink (NewWriter Unit 3) [] [5] 2 = some res ∧
      ((res.err = none → res.n = [5].length) ∧
       (res.err ≠ none → res.n = eventsConsumed res.events)) :=
  ⟨_, rfl, C3_write_count modelZstd bufferSink (NewWriter Unit 3) [] [5] 2 _ rfl⟩

/-- C5 (amended): a second `Close` on an already-closed Writer returns
success with no events at all, and a second `Reader.Close` likewise; a
first `Close` on a never-opened instance returns success with no *stream*
teardown, but it does release the still-alive context — one native call. -/
theorem C5_idempotent_close (z : Zstd σc σd) (sk : Sink τ) :
    (∀ (w : Writer σc) (sink : τ) (fuel : Nat) (res : FlushResult σc τ),
      Writer.Close z sk w sink fuel = some res →
      ∀ (sink2 : τ) (f2 : Nat), ∃ res2,
        Writer.Close z sk res.w sink2 f2 = some res2 ∧
        res2.err = none ∧ res2.events = [] ∧ res2.sink = sink2) ∧
    (∀ r : Reader σd,
      (Reader.Close (Reader.Close r).2.1).1 = none ∧
      (Reader.Close (Reader.Close r).2.1).2.2 = []) := by
  constructor
  · intro w sink fuel res h
    obtain ⟨hs, hc, _, _, _⟩ := Close_spec z sk w sink fuel res h
    intro sink2 f2
    rw [Writer.Close]
    split
    · next heq =>
      exact ⟨_, rfl, rfl, by simp [hc], rfl⟩
    · next s heq =>
      rw [hs] at heq
      exact Option.noConfusion heq
  · intro r
    exact ⟨rfl, rfl⟩

/-- C5 counterexample: closing a never-opened Writer succeeds but performs
one native call — it frees the compression context allocated by
`NewWriter`. -/
theorem C5_fresh_close_calls_native :
    ∃ res : FlushResult Unit (List Nat),
      Writer.Close modelZstd bufferSink (NewWriter Unit 3) [] 1 = some res ∧
      res.err = none ∧ res.events = [Event.freeCCtx] ∧
      res.events.any Event.isNative = true :=
  ⟨_, rfl, rfl, rfl, rfl⟩

/-- C5 witness: the double-close of a fresh Writer and of a fresh Reader. -/
theorem C5_idempotent_close_witness :
    ((Reader.Close (Reader.Close (NewReader DState)).2.1).1 = none ∧
     (Reader.Close (Reader.Close (NewReader DState)).2.1).2.2 = []) ∧
    ∃ res : FlushResult Unit (List Nat),
      Writer.Close modelZstd bufferSink (NewWriter Unit 3) [] 1 = some res ∧
      ∃ res2, Writer.Close modelZstd bufferSink res.w [] 1 = some res2 ∧
        res2.err = none ∧ res2.events = [] ∧ res2.sink = [] := by
  refine ⟨(C5_idempotent_close modelZstd bufferSink).2 (NewReader DState), _, rfl, ?_⟩
  exact (C5_idempotent_close modelZstd bufferSink).1 (NewWriter Unit 3) [] 1 _ rfl [] 1

/-- C6 (amended): a completed `Read` that returns `(0, nil)` does so only
when the source itself just reported "no data yet, no error"; `io.EOF` is
only returned when the stream was already marked ended on entry or a step
of this call signalled frame completion — but the entry mark can also stem
from an earlier codec fault, not only from frame completion. -/
theorem C6_read_zero_semantics (z : Zstd σc σd) (so : Source ρ) (r : Reader σd)
    (src : ρ) (pcap fuel : Nat) (res : ReadResult σd ρ)
    (h : Reader.Read z so r src pcap fuel = some res) :
    (1 ≤ pcap → res.n = 0 → res.err = none →
      res.events.getLast? = some (.sourceRead 0 none)) ∧
    (res.err = some .eof → r.streamEnded = true ∨
      res.events.any frameCompleteB = true) ∧
    (res.r.streamEnded = true → r.streamEnded = true ∨
      res.events.any (endedEvent z) = true) := by
  obtain ⟨h1, h2, h3, _, _, _⟩ := Read_spec z so r src pcap fuel res h
  exact ⟨h1, h2, h3⟩

/-- C6 counterexample: after a codec fault (which marks the stream ended),
the next `Read` reports `io.EOF` although the engine never signalled frame
completion — end-of-stream is not reserved for frame completion. -/
theorem C6_eof_after_fault :
    ∃ res res2 : ReadResult Unit (List Nat),
      Reader.Read faultyZstd listSource (NewReader Unit) [1] 1 2 = some res ∧
      res.err = some (.codec 5) ∧ res.events.any frameCompleteB = false ∧
      res.r.streamEnded = true ∧
      Reader.Read faultyZstd listSource res.r res.src 1 2 = some res2 ∧
      res2.err = some .eof ∧ res2.events = [] :=
  ⟨_, _, rfl, rfl, rfl, rfl, rfl, rfl, rfl⟩

/-- C6 witness: the model reader on the one-byte frame `[0]` finishes at
`io.EOF` with a frame-completion step recorded. -/
theorem C6_read_zero_semantics_witness :
    ∃ res : ReadResult DState (List Nat),
      Reader.Read modelZstd listSource (NewReader DState) [0] 1 2 = some res ∧
      ((1 ≤ 1 → res.n = 0 → res.err = none →
        res.events.getLast? = some (.sourceRead 0 none)) ∧
       (res.err = some .eof → (NewReader DState).streamEnded = true ∨
         res.events.any frameCompleteB = true) ∧
       (res.r.streamEnded = true → (NewReader DState).streamEnded = true ∨
         res.events.any (endedEvent modelZstd) = true)) :=
  ⟨_, rfl, C6_read_zero_semantics modelZstd listSource (NewReader DState) [0] 1 2 _ rfl⟩

/-- C7 (amended): the session is released exactly once, by `Close` — once
when the handle is alive, never when it is nil — and `Write`, `Flush` and
`Read` never release it, so double-destruction cannot occur; but a fatal
error inside `Write`/`Read` leaves the session allocated until `Close`
rather than destroying it at the fault. -/
theorem C7_session_lifecycle (z : Zstd σc σd) (sk : Sink τ) (so : Source ρ) :
    (∀ (w : Writer σc) (sink : τ) (p : List Nat) (fuel : Nat) (res : WriteResult σc τ),
      Writer.Write z sk w sink p fuel = some res → Event.freeCStream ∉ res.events) ∧
    (∀ (w : Writer σc) (sink : τ) (fuel : Nat) (res : FlushResult σc τ),
      Writer.Flush z sk w sink fuel = some res → Event.freeCStream ∉ res.events) ∧
    (∀ (w : Writer σc) (sink : τ) (fuel : Nat) (res : FlushResult σc τ),
      Writer.Close z sk w sink fuel = some res →
      res.events.count Event.freeCStream =
        (match w.stream with | none => 0 | some _ => 1) ∧ res.w.stream = none) ∧
    (∀ (r : Reader σd) (src : ρ) (pcap fuel : Nat) (res : ReadResult σd ρ),
      Reader.Read z so r src pcap fuel = some res → Event.freeDStream ∉ res.events) ∧
    (∀ r : Reader σd,
      (Reader.Close r).2.2.count Event.freeDStream =
        (match r.stream with | none => 0 | some _ => 1) ∧
      (Reader.Close r).2.1.stream = none) := by
  refine ⟨?_, ?_, ?_, ?_, ?_⟩
  · intro w sink p fuel res h
    exact (Write_spec z sk w sink p fuel res h).2.2.1
  · intro w sink fuel res h
    exact (Flush_spec z sk w sink fuel res h).1
  · intro w sink fuel res h
    obtain ⟨hs, _, hcount, _, _⟩ := Close_spec z sk w sink fuel res h
    exact ⟨hcount, hs⟩
  · intro r src pcap fuel res h
    exact (Read_spec z so r src pcap fuel res h).2.2.2.1
  · intro r
    refine ⟨?_, rfl⟩
    rcases hrs : r.stream with _ | s
    · rcases hrc : r.ctx
      · simp only [Reader.Close, hrs, hrc]
        decide
      · simp only [Reader.Close, hrs, hrc]
        decide
    · rcases hrc : r.ctx
      · simp only [Reader.Close, hrs, hrc]
        decide
      · simp only [Reader.Close, hrs, hrc]
        decide

/-- C7 counterexample: a fatal engine fault inside `Write` returns the
error but does not release the session — the stream handle stays alive
(and is not freed) until a later `Close`. -/
theorem C7_error_leaves_session_live :
    ∃ res : WriteResult Unit (List Nat),
      Writer.Write faultyZstd bufferSink (NewWriter Unit 3) [] [5] 2 = some res ∧
      res.err ≠ none ∧ Event.freeCStream ∉ res.events ∧ res.w.stream = some () :=
  ⟨_, rfl, by decide, by decide, rfl⟩

/-- C7 witness: closing a Writer whose stream is alive frees it exactly
once and nils the handle. -/
theorem C7_session_lifecycle_witness :
    ∃ res : FlushResult Unit (List Nat),
      Writer.Close modelZstd bufferSink
        { NewWriter Unit 3 with stream := some () } [] 1 = some res ∧
      res.events.count Event.freeCStream = 1 ∧ res.w.stream = none := by
  obtain ⟨hcount, hs⟩ := (C7_session_lifecycle modelZstd bufferSink listSource).2.2.1
    { NewWriter Unit 3 with stream := some () } [] 1 _ rfl
  exact ⟨_, rfl, hcount, hs⟩

/-- C8: with the spec-modelled engine, `flush` does not end the frame:
write `a`, flush, write `b`, close yields a single valid model frame (a
chunked body and one terminator) that streams back to `a ++ b`. -/
theorem C8_flush_keeps_frame (a b : List Nat) (level : Int)
    (ha : a ≠ []) (hb : b ≠ []) :
    ∃ enc, Chunked (a ++ b) enc ∧
      flushScenario modelZstd level a b (a.length + 1) 1 (b.length + 1) 1 =
        some (enc ++ [0]) ∧
      decompressViaReader modelZstd (enc ++ [0]) ((a ++ b).length + 2)
        (2 * (a ++ b).length + 3) ((a ++ b).length + 1) = some (a ++ b) := by
  obtain ⟨ea, w1, evs1, hW1, hcA, hstr1, hcap1, _, _⟩ :=
    write_model (NewWriter Unit level) [] a (a.length + 1)
      (by norm_num [NewWriter, defaultWriteBufferSize]) ha (by omega)
  obtain ⟨c, hF, hferr, hfsink, hfstr, hfcap, _, _⟩ :=
    flush_model w1 ([] ++ ea) 1 hstr1 (le_refl 1)
  obtain ⟨eb, w2, evs2, hW2, hcB, hstr2, hcap2, _, _⟩ :=
    write_model c.w c.sink b (b.length + 1)
      (by rw [hfcap, hcap1]; norm_num [NewWriter, defaultWriteBufferSize]) hb (by omega)
  obtain ⟨c2, hC, hc2err, hc2sink, _, _⟩ :=
    close_model w2 (c.sink ++ eb) 1
      (by rw [hcap2, hfcap, hcap1]; norm_num [NewWriter, defaultWriteBufferSize])
      hstr2 (le_refl 1)
  refine ⟨ea ++ eb, Chunked.append hcA hcB, ?_,
    decompressViaReader_model (Chunked.append hcA hcB)⟩
  rw [flushScenario, hW1]
  simp only
  rw [hF]
  simp only [hferr]
  rw [hW2]
  simp only
  rw [hC]
  simp only [hc2err]
  rw [hc2sink, hfsink]
  simp

/-- C8 witness: write `[1]`, flush, write `[2]`, close produces one frame
that streams back to `[1, 2]`. -/
theorem C8_flush_keeps_frame_witness :
    ∃ enc, Chunked ([1] ++ [2]) enc ∧
      flushScenario modelZstd 3 [1] [2] ([1].length + 1) 1 ([2].length + 1) 1 =
        some (enc ++ [0]) ∧
      decompressViaReader modelZstd (enc ++ [0]) (([1] ++ [2]).length + 2)
        (2 * ([1] ++ [2]).length + 3) (([1] ++ [2]).length + 1) = some ([1] ++ [2]) :=
  C8_flush_keeps_frame [1] [2] 3 (by decide) (by decide)

/-- C9: for an engine that respects the cursor contract, every step a
completed `Write`, `Flush`, `Close` or `Read` records has the output
cursor's filled-so-far reset to 0 at the moment of the call and at most
the staging capacity after it. -/
theorem C9_output_cursor (z : Zstd σc σd) (sk : Sink τ) (so : Source ρ) :
    (z.CWF → ∀ (w : Writer σc) (sink : τ) (p : List Nat) (fuel : Nat)
      (res : WriteResult σc τ), Writer.Write z sk w sink p fuel = some res →
      res.events.all cursorOk = true) ∧
    (z.CWF → ∀ (w : Writer σc) (sink : τ) (fuel : Nat) (res : FlushResult σc τ),
      Writer.Flush z sk w sink fuel = some res → res.events.all cursorOk = true) ∧
    (z.CWF → ∀ (w : Writer σc) (sink : τ) (fuel : Nat) (res : FlushResult σc τ),
      Writer.Close z sk w sink fuel = some res → res.events.all cursorOk = true) ∧
    (z.DWF → ∀ (r : Reader σd) (src : ρ) (pcap fuel : Nat) (res : ReadResult σd ρ),
      Reader.Read z so r src pcap fuel = some res →
      res.events.all cursorOk = true) := by
  refine ⟨?_, ?_, ?_, ?_⟩
  · intro hwf w sink p fuel res h
    exact (Write_spec z sk w sink p fuel res h).2.2.2.1 hwf
  · intro hwf w sink fuel res h
    exact (Flush_spec z sk w sink fuel res h).2.1 hwf
  · intro hwf w sink fuel res h
    exact (Close_spec z sk w sink fuel res h).2.2.2.1 hwf
  · intro hwf r src pcap fuel res h
    exact (Read_spec z so r src pcap fuel res h).2.2.2.2.1 hwf

/-- C9 witness: the model engine respects the cursor contract, and a
concrete `Write` and `Read` against it record only cursor-respecting
steps. -/
theorem C9_output_cursor_witness :
    ∃ res : WriteResult Unit (List Nat),
      Writer.Write modelZstd bufferSink (NewWriter Unit 3) [] [5] 2 = some res ∧
      res.events.all cursorOk = true ∧
      ∃ res2 : ReadResult DState (List Nat),
        Reader.Read modelZstd listSource (NewReader DState) [0] 1 2 = some res2 ∧
        res2.events.all cursorOk = true :=
  ⟨_, rfl,
    (C9_output_cursor modelZstd bufferSink listSource).1 modelZstd_CWF
      (NewWriter Unit 3) [] [5] 2 _ rfl,
    _, rfl,
    (C9_output_cursor modelZstd bufferSink listSource).2.2.2 modelZstd_DWF
      (NewReader DState) [0] 1 2 _ rfl⟩

end ZstdPurego
